import Mathlib

/-!
# Topic: the persisted multi-producer / multi-consumer queue of `src/queue.cpp`

Shallow embedding of class `Topic` and of the file streams it uses.

Conventions of the embedding

* Host.  `size_t` is 8 bytes wide and its object representation is little-endian
  (x86-64 / AArch64 Linux).  `write_` writes the raw object representation of the
  payload size and `read` reads it back through a union.
* Strings.  A `std::string` is a list of bytes whose size fits a `size_t`.
* Counters.  `written_`, `consumed` and `cur_id_` are 64-bit counters.  They are
  natural numbers here: `2 ^ 64` appended frames need a file of more than `2 ^ 67`
  bytes and `2 ^ 64` registrations need `2 ^ 64` map entries, so no run wraps them.
* Streams.  The file `name_` is a list of bytes.  The `ofstream` buffers what
  it is given and `flush` hands the buffer to the device.  The device takes all the
  bytes (`room = none`) or only the first `k` of them (`room = some k`); a short
  append sets `badbit`, and a stream that is not good ignores `write` and `flush`.
  An `ifstream` is a position in the file and a fail flag; a short `read` delivers
  the bytes that exist and sets the fail flag, a failed stream delivers nothing.
* Threads.  Operations are atomic steps: `write` holds `qlock_`, the writer loop is
  the only caller of `write_`, and `read` only looks at frames already counted by
  `written_`.  A `read` that finds `consumed == written_` stays in its wait loop;
  the model reports this as `ReadResult.blocked`.
* Uninitialised memory.  The union `x` in `read` is not initialised; the value its
  member `n` holds before the stream fills it is the parameter `x0`.
* Allocation.  `string s(x.n, 0)` in `read` is taken to succeed.
-/

namespace Queue

/-- One `char`. -/
abbrev Byte := Fin 256

/-- The constant `sizeof(size_t)`. -/
abbrev SIZEOF_SIZE_T : Nat := 8

/-- The type `ConsumerID` (`uint64_t`). -/
abbrev ConsumerID := Nat

/-- A `std::string`: bytes, with a size that fits `size_t`. -/
abbrev Payload := { l : List Byte // l.length < 2 ^ 64 }

/-- Object representation of an unsigned integer `n` in `k` bytes, least
significant byte first (what `reinterpret_cast<const char *>(&n)` points to). -/
def le_bytes : Nat → Nat → List Byte
  | 0, _ => []
  | k + 1, n => ⟨n % 256, Nat.mod_lt n (by decide)⟩ :: le_bytes k (n / 256)

/-- Value of an unsigned integer whose object representation is `bs` (what the
union member `x.n` holds when `x.buf` holds `bs`). -/
def le_val : List Byte → Nat
  | [] => 0
  | b :: bs => b.val + 256 * le_val bs

/-- State of `ofstream writer_`: the bytes buffered and not yet handed to the
device, and the error state. -/
structure OFStream where
  buf : List Byte
  bad : Bool
deriving DecidableEq

/-- The call `ofstream::write(buf, n)`: buffers the bytes; no effect on a stream that is
not good. -/
def OFStream.write (w : OFStream) (bytes : List Byte) : OFStream :=
  if w.bad then w else { w with buf := w.buf ++ bytes }

/-- The call `ofstream::flush()` on the file `file`: the device takes the buffered bytes,
all of them (`room = none`) or at most `k` (`room = some k`); a short append sets
`badbit`.  No effect on a stream that is not good. -/
def OFStream.flush (w : OFStream) (file : List Byte) (room : Option Nat) :
    OFStream × List Byte :=
  if w.bad then (w, file)
  else
    match room with
    | none => ({ buf := [], bad := false }, file ++ w.buf)
    | some k =>
      if w.buf.length ≤ k then ({ buf := [], bad := false }, file ++ w.buf)
      else ({ buf := w.buf.drop k, bad := true }, file ++ w.buf.take k)

/-- State of an `ifstream`: whether a file is open, the read position, and the
fail state (`failbit` or `eofbit`). -/
structure IFStream where
  is_open : Bool
  pos : Nat
  fail : Bool
deriving DecidableEq

/-- The stream `ifstream(name_)`: the file opened at offset 0. -/
def IFStream.opened : IFStream := { is_open := true, pos := 0, fail := false }

/-- The stream `ifstream()`: no file open. -/
def IFStream.closed : IFStream := { is_open := false, pos := 0, fail := false }

/-- The call `ifstream::read(buf, n)` over the file contents `file`: the bytes delivered
and the stream afterwards.  Fewer than `n` bytes left: those are delivered and the
stream fails.  A stream that is not good delivers nothing. -/
def IFStream.read (f : IFStream) (file : List Byte) (n : Nat) : List Byte × IFStream :=
  if f.is_open && !f.fail then
    let got := (file.drop f.pos).take n
    (got, { f with pos := f.pos + got.length, fail := decide (got.length < n) })
  else ([], { f with fail := true })

/-- The struct `Topic::ConsumerMeta`. -/
structure ConsumerMeta where
  ifs : IFStream
  consumed : Nat
deriving DecidableEq

/-- A value-initialised `ConsumerMeta`, as `consumers_[cid]` inserts for a
missing key. -/
def ConsumerMeta.default : ConsumerMeta := { ifs := IFStream.closed, consumed := 0 }

/-- The map type `std::map<ConsumerID, ConsumerMeta>`. -/
abbrev ConsumerMap := ConsumerID → Option ConsumerMeta

/-- Value that `m[k]` refers to. -/
def ConsumerMap.get (m : ConsumerMap) (k : ConsumerID) : ConsumerMeta :=
  (m k).getD ConsumerMeta.default

/-- Map after `m[k] = v`. -/
def ConsumerMap.set (m : ConsumerMap) (k : ConsumerID) (v : ConsumerMeta) : ConsumerMap :=
  fun j => if j = k then some v else m j

/-- State of a `Topic`, with the contents of the file `name_`. -/
structure Topic where
  /-- Contents of the file `name_`: the durable store. -/
  file : List Byte
  writer_ : OFStream
  consumers_ : ConsumerMap
  cur_id_ : ConsumerID
  queue_ : List Payload
  written_ : Nat

namespace Topic

/-- The constructor `Topic(name)`: `ofstream writer_(name)` creates the file or
truncates it. -/
def init : Topic :=
  { file := [], writer_ := { buf := [], bad := false }, consumers_ := fun _ => none,
    cur_id_ := 0, queue_ := [], written_ := 0 }

/-- The method `Topic::registerConsumer`: the id returned and the state afterwards. -/
def registerConsumer (t : Topic) : ConsumerID × Topic :=
  let id := t.cur_id_
  (id, { t with
    cur_id_ := t.cur_id_ + 1
    consumers_ := t.consumers_.set id { ifs := IFStream.opened, consumed := 0 } })

/-- The method `Topic::write`: pushes the payload on `queue_`. -/
def write (t : Topic) (s : Payload) : Topic :=
  { t with queue_ := t.queue_ ++ [s] }

/-- Outcome of a call of `Topic::read`. -/
inductive ReadResult where
  /-- The caller is in the wait loop: `consumed == written_`. -/
  | blocked (t : Topic)
  /-- The call returned the string `s`. -/
  | returned (s : List Byte) (t : Topic)

/-- State a `ReadResult` leaves the topic in. -/
def ReadResult.state : ReadResult → Topic
  | .blocked t => t
  | .returned _ t => t

/-- String a `ReadResult` returned, if any. -/
def ReadResult.value : ReadResult → Option (List Byte)
  | .blocked _ => none
  | .returned s _ => some s

/-- The method `Topic::read`.  `x0` is the value the uninitialised `x.n` holds on entry. -/
def read (t : Topic) (cid : ConsumerID) (x0 : Nat) : ReadResult :=
  -- auto &consumed = consumers_[cid].consumed;
  let m := t.consumers_.get cid
  let t1 := { t with consumers_ := t.consumers_.set cid m }
  -- while (consumed == written_) sleep(1);
  if m.consumed = t.written_ then .blocked t1
  else
    -- ifs.read(x.buf, sizeof(x.buf));
    let r1 := m.ifs.read t.file SIZEOF_SIZE_T
    let xbuf := r1.1 ++ (le_bytes SIZEOF_SIZE_T x0).drop r1.1.length
    let n := le_val xbuf
    -- string s(x.n, 0); ifs.read((char *)s.data(), s.size());
    let r2 := r1.2.read t.file n
    let s := r2.1 ++ List.replicate (n - r2.1.length) 0
    -- ++consumed; return s;
    .returned s { t with
      consumers_ := t.consumers_.set cid { ifs := r2.2, consumed := m.consumed + 1 } }

/-- The body of `Topic::write_` up to and including `writer_.flush()`. -/
def write_flushed (t : Topic) (s : Payload) (room : Option Nat) : Topic :=
  -- auto n = s.size(); const char *buf = reinterpret_cast<const char *>(&n);
  let n := s.val.length
  -- writer_.write(buf, sizeof(decltype(n)));
  let w1 := t.writer_.write (le_bytes SIZEOF_SIZE_T n)
  -- writer_.write(s.data(), n);
  let w2 := w1.write (s.val.take n)
  -- writer_.flush();
  let r := w2.flush t.file room
  { t with writer_ := r.1, file := r.2 }

/-- The method `Topic::write_`: the frame is written and flushed, then `++written_`. -/
def write_ (t : Topic) (s : Payload) (room : Option Nat) : Topic :=
  let t1 := write_flushed t s room
  { t1 with written_ := t1.written_ + 1 }

/-- One iteration of the writer thread of the constructor: with `queue_` empty
it waits, otherwise it pops the front and calls `write_`. -/
def writerStep (t : Topic) (room : Option Nat) : Topic :=
  match t.queue_ with
  | [] => t
  | payload :: rest => write_ { t with queue_ := rest } payload room

end Topic

/-- The operations on a topic, on a device that takes every append: `write`
(enqueue), one iteration of the writer loop, `registerConsumer`, `read`. -/
inductive Op where
  | write (s : Payload)
  | writerStep
  | registerConsumer
  | read (cid : ConsumerID) (x0 : Nat)

/-- An event in the life of a topic: an operation, or an iteration of the writer
loop during which the device takes only `k` more bytes. -/
inductive Event where
  | op (o : Op)
  | shortAppend (k : Nat)

/-- State after an operation. -/
def Op.apply (o : Op) (t : Topic) : Topic :=
  match o with
  | .write s => t.write s
  | .writerStep => t.writerStep none
  | .registerConsumer => t.registerConsumer.2
  | .read cid x0 => (t.read cid x0).state

/-- State after an event. -/
def Event.apply (e : Event) (t : Topic) : Topic :=
  match e with
  | .op o => o.apply t
  | .shortAppend k => t.writerStep (some k)

/-- State after a sequence of operations, first to last. -/
def run (ops : List Op) (t : Topic) : Topic :=
  ops.foldl (fun s o => o.apply s) t

/-- State after a sequence of events, first to last. -/
def runEvents (es : List Event) (t : Topic) : Topic :=
  es.foldl (fun s e => e.apply s) t

/-- The bytes `write_` hands to the stream for the payload `p`: the size, then the
payload. -/
def frame (p : Payload) : List Byte :=
  le_bytes SIZEOF_SIZE_T p.val.length ++ p.val

/-- The store that holds the frames of the payloads `ps`, in order. -/
def frames (ps : List Payload) : List Byte :=
  (ps.map frame).flatten

/-- Payloads of the complete frames at the start of `bytes`, decoded the way
`read` decodes one frame; `fuel` bounds the number of frames. -/
def framesOfAux : Nat → List Byte → List (List Byte)
  | 0, _ => []
  | fuel + 1, bytes =>
    if bytes.length < SIZEOF_SIZE_T then []
    else
      let n := le_val (bytes.take SIZEOF_SIZE_T)
      let rest := bytes.drop SIZEOF_SIZE_T
      if rest.length < n then [] else rest.take n :: framesOfAux fuel (rest.drop n)

/-- Payloads of the complete frames of a store. -/
def framesOf (bytes : List Byte) : List (List Byte) :=
  framesOfAux bytes.length bytes

/-- Bytes of a store left after its complete frames. -/
def tailOfAux : Nat → List Byte → List Byte
  | 0, bytes => bytes
  | fuel + 1, bytes =>
    if bytes.length < SIZEOF_SIZE_T then bytes
    else
      let n := le_val (bytes.take SIZEOF_SIZE_T)
      let rest := bytes.drop SIZEOF_SIZE_T
      if rest.length < n then bytes else tailOfAux fuel (rest.drop n)

/-- Bytes of a store that belong to no complete frame. -/
def tailOf (bytes : List Byte) : List Byte :=
  tailOfAux bytes.length bytes

/-- The payloads a sequence of operations hands to `write`, in call order. -/
def enqueued : List Op → List Payload
  | [] => []
  | .write s :: ops => s :: enqueued ops
  | _ :: ops => enqueued ops

/-- The ids the calls of `registerConsumer` in a sequence of events return, in
call order, when the sequence starts in state `t`. -/
def returnedIds : List Event → Topic → List ConsumerID
  | [], _ => []
  | .op .registerConsumer :: es, t =>
    t.registerConsumer.1 :: returnedIds es t.registerConsumer.2
  | e :: es, t => returnedIds es (e.apply t)

/-- The strings `k` consecutive calls `read(cid)` return and the state after them;
`none` when one of the calls stays in its wait loop.  `junk i` is the value the
uninitialised `x.n` holds in call `i`. -/
def readN (cid : ConsumerID) : Nat → (Nat → Nat) → Topic → Option (List (List Byte) × Topic)
  | 0, _, t => some ([], t)
  | k + 1, junk, t =>
    match t.read cid (junk 0) with
    | .blocked _ => none
    | .returned s t1 =>
      (readN cid k (fun i => junk (i + 1)) t1).map (fun r => (s :: r.1, r.2))

/-- The store `file` ends in a truncated frame that starts at offset `off`: the
8 bytes of a size `N` are there, followed by fewer than `N` bytes. -/
def TruncatedAt (file : List Byte) (off : Nat) : Prop :=
  off + SIZEOF_SIZE_T ≤ file.length ∧
    file.length - (off + SIZEOF_SIZE_T) < le_val ((file.drop off).take SIZEOF_SIZE_T)

instance (file : List Byte) (off : Nat) : Decidable (TruncatedAt file off) :=
  inferInstanceAs (Decidable (_ ∧ _))

/-- Whether an event is a call of `registerConsumer`. -/
def Event.isRegister : Event → Bool
  | .op .registerConsumer => true
  | _ => false

/-- Invariant of the runs in which the device takes every append: the writer
stream is good with nothing buffered; the payloads handed to `write` so far
(`hist`) are those framed in the store, `written_` of them, followed by those
still in `queue_`; and every registered consumer has an open, good stream that
stands at the start of frame number `consumed`, with `consumed ≤ written_`. -/
def Inv (t : Topic) (hist : List Payload) : Prop :=
  t.writer_ = { buf := [], bad := false } ∧
    ∃ stored : List Payload,
      hist = stored ++ t.queue_ ∧ t.file = frames stored ∧ t.written_ = stored.length ∧
        ∀ cid, cid < t.cur_id_ → ∃ c, c ≤ stored.length ∧
          t.consumers_ cid = some
            { ifs := { is_open := true, pos := (frames (stored.take c)).length, fail := false },
              consumed := c }

/-- The string "abc". -/
def abc : Payload := ⟨[97, 98, 99], by decide⟩

/-- The string "A". -/
def strA : Payload := ⟨[65], by decide⟩

/-- The string "B". -/
def strB : Payload := ⟨[66], by decide⟩

/-- Two payloads enqueued, both persisted. -/
def opsAB : List Op := [.write strA, .write strB, .writerStep, .writerStep]

/-- Two payloads persisted, then consumer 0 registers. -/
def opsAB0 : List Op := opsAB ++ [.registerConsumer]

/-- Consumer 0 reads one frame, then consumer 1 registers. -/
def opsLater : List Op := [.read 0 0, .registerConsumer]

/-- The state in which the device took only 9 bytes of the frame of "abc" and a
consumer registered afterwards. -/
def truncatedTopic : Topic :=
  (runEvents [.op (.write abc), .shortAppend 9] Topic.init).registerConsumer.2

/-- The state in which the device took only 9 bytes of the frame of "abc". -/
def shortTopic : Topic :=
  runEvents [.op (.write abc), .shortAppend 9] Topic.init

/-- One frame, of "abc", durable and a consumer registered. -/
def oneFrameTopic : Topic :=
  run [.write abc, .writerStep, .registerConsumer] Topic.init

end Queue

/-!
# The Fibonacci functions of `src/fibonacci.cpp`

`uint32_t` and `uint64_t` values are natural numbers with the wrap-around written
out.  A loop or a recursion carries a fuel argument and returns `none` when the
fuel runs out; the call stack is taken to be deep enough.
-/

namespace Fib

/-- The function `fib_naive`: `uint32_t` argument, `uint64_t` result, so the sum wraps at
`2 ^ 64`. -/
def fib_naive : Nat → Nat
  | 0 => 0
  | 1 => 1
  | n + 2 => (fib_naive (n + 1) + fib_naive n) % 2 ^ 64

/-- The `for` loop of `fib_iter`, entered with the values `i`, `prev`, `cur` (all
`uint32_t`, so `++i` and `prev + cur` wrap at `2 ^ 32`): the value of `cur` when the
loop is left, or `none` when it is still running after `fuel` tests of `i <= n`. -/
def fib_iter_loop (n : Nat) : Nat → Nat → Nat → Nat → Option Nat
  | 0, _, _, _ => none
  | fuel + 1, i, prev, cur =>
    if i ≤ n then
      -- auto tmp = prev + cur; prev = cur; cur = tmp; ++i
      fib_iter_loop n fuel ((i + 1) % 2 ^ 32) cur ((prev + cur) % 2 ^ 32)
    else some cur

/-- The function `fib_iter`: `prev = 0`, `cur = 1`, the loop from `i = 1`, `return cur`.
The loop is given `n + 1` tests, which is what it needs whenever it ends. -/
def fib_iter (n : Nat) : Option Nat :=
  fib_iter_loop n (n + 1) 1 0 1

/-- The static table `memo` of `fib_memo`. -/
abbrev Memo := Nat → Option Nat

/-- The table as initialised: `{{0, 0}, {1, 1}}`. -/
def Memo.init : Memo := fun k => if k = 0 then some 0 else if k = 1 then some 1 else none

/-- The table after `memo[k] = v`. -/
def Memo.set (memo : Memo) (k v : Nat) : Memo := fun j => if j = k then some v else memo j

/-- The function `fib_memo` on the table `memo`: the value returned and the table
afterwards, or `none` when the recursion is deeper than `fuel`.  The argument is a
`uint32_t`, so `n - 1` and `n - 2` wrap at `2 ^ 32`; the sum is a `uint64_t`.  The
order in which the two operands of `+` are evaluated is not fixed by the language:
`leftFirst` says which call comes first. -/
def fib_memo (leftFirst : Bool) : Nat → Memo → Nat → Option (Nat × Memo)
  | 0, _, _ => none
  | fuel + 1, memo, n =>
    match memo n with
    | some v => some (v, memo)
    | none =>
      let n1 := (n + 2 ^ 32 - 1) % 2 ^ 32
      let n2 := (n + 2 ^ 32 - 2) % 2 ^ 32
      if leftFirst then
        match fib_memo leftFirst fuel memo n1 with
        | none => none
        | some (a, m1) =>
          match fib_memo leftFirst fuel m1 n2 with
          | none => none
          | some (b, m2) => some ((a + b) % 2 ^ 64, m2.set n ((a + b) % 2 ^ 64))
      else
        match fib_memo leftFirst fuel memo n2 with
        | none => none
        | some (b, m1) =>
          match fib_memo leftFirst fuel m1 n1 with
          | none => none
          | some (a, m2) => some ((a + b) % 2 ^ 64, m2.set n ((a + b) % 2 ^ 64))

/-- The table after the calls `fib_memo(k)` for the `k` of `calls`, in order,
each with fuel `k + 1`; `none` when one of them runs out of fuel. -/
def afterCalls (leftFirst : Bool) : List Nat → Memo → Option Memo
  | [], memo => some memo
  | k :: calls, memo =>
    match fib_memo leftFirst (k + 1) memo k with
    | none => none
    | some r => afterCalls leftFirst calls r.2

/-- Every entry of the table holds the value of `fib_naive`, and the entries for 0
and 1 are there. -/
def MemoOK (memo : Memo) : Prop :=
  memo 0 = some 0 ∧ memo 1 = some 1 ∧ ∀ k v, memo k = some v → v = fib_naive k

end Fib

/-!
# The regex matcher of `src/regex.cpp`

A `std::string` is a list of `Char`.  A `Span` is an address and a length, and the
subject string lies in a memory `mem` that also holds the bytes around it, so that
`s[i]` has a value for every index the code uses.  Loop counters declared
`auto i = 0` are `int`; they are natural numbers here, which is what they are for
strings shorter than `2 ^ 31` bytes.  A function that throws, or that indexes a
string at `npos`, returns `none`.
-/

namespace Regex

/-- The memory the subject string lies in: `mem a` is the `char` at address
`data() + a`; negative `a` are the bytes before the string. -/
abbrev Mem := Int → Char

/-- The `char` with value 0. -/
abbrev NUL : Char := Char.ofNat 0

/-- The class `Span<char>`: the address of the first element, relative to the start of
the subject string, and the number of elements. -/
structure Span where
  buf_ : Int
  N_ : Nat
deriving DecidableEq

/-- The operator `Span::operator[]`: `buf_[i]`, whatever `i` is. -/
def Span.get (M : Mem) (s : Span) (i : Int) : Char := M (s.buf_ + i)

/-- The method `Span::slice`: `Span(buf_ + start, end - start)`.  Every call in the
program has `start ≤ end`. -/
def Span.slice (s : Span) (start end_ : Nat) : Span :=
  { buf_ := s.buf_ + start, N_ := end_ - start }

/-- The matcher classes derived from `BaseMatcher`, with their members `_c`, `low_`,
`high_`. -/
inductive BaseMatcher where
  | SingleMatcher (c : Char)
  | PlusMatcher (c : Char)
  | StarMatcher (c : Char)
  | RangeMatcher (c : Char) (low_ high_ : Nat)
deriving DecidableEq

/-- The loop `for (auto i = 0; i < s.size() && s[i] == _c; ++i) v.push_back(s.slice(i + 1,
s.size()))` of `PlusMatcher::chomp` and `StarMatcher::chomp`, entered at `i`: the spans
pushed.  `fuel` bounds the number of iterations. -/
def chompLoop (M : Mem) (s : Span) (c : Char) : Nat → Nat → List Span
  | 0, _ => []
  | fuel + 1, i =>
    if i < s.N_ && s.get M i == c then s.slice (i + 1) s.N_ :: chompLoop M s c fuel (i + 1)
    else []

/-- The second loop of `RangeMatcher::chomp`, `for (auto i = low; i <= high && s[i - 1] == _c;
++i) v.push_back(s.slice(i, s.size()))`, entered at `i`.  `i` is a `size_t`: for `i = 0`
the index `i - 1` is the largest `size_t` and `buf_[i - 1]` is the byte before the span. -/
def rangeLoop (M : Mem) (s : Span) (c : Char) (high : Nat) : Nat → Nat → List Span
  | 0, _ => []
  | fuel + 1, i =>
    if i ≤ high && s.get M ((i : Int) - 1) == c then
      s.slice i s.N_ :: rangeLoop M s c high fuel (i + 1)
    else []

/-- The virtual method `chomp` of the four matchers: the suffixes left after a match
of the matcher at the start of `s`. -/
def BaseMatcher.chomp (M : Mem) : BaseMatcher → Span → List Span
  | .SingleMatcher c, s =>
    if s.N_ = 0 || s.get M 0 != c then [] else [s.slice 1 s.N_]
  | .PlusMatcher c, s =>
    if s.N_ = 0 then [] else chompLoop M s c s.N_ 0
  | .StarMatcher c, s =>
    s :: chompLoop M s c s.N_ 0
  | .RangeMatcher c low_ high_, s =>
    let low := min low_ s.N_
    let high := min high_ s.N_
    -- for (auto i = 0; i < low_; ++i) if (s[i] != _c) return v;
    if (List.range low_).all (fun i => s.get M i == c) then
      if low = s.N_ then
        if low = low_ then [s.slice low s.N_] else []
      else rangeLoop M s c high (high + 1) low
    else []

/-- The function `_match` from the matcher at `regex_start` on: `rest` is the matchers from
that index to the end. -/
def _match_from (M : Mem) : List BaseMatcher → Span → Bool
  | [], s => s.N_ == 0
  | m :: rest, s => (m.chomp M s).any (fun suffix => _match_from M rest suffix)

/-- The function `_match`. -/
def _match (M : Mem) (matchers : List BaseMatcher) (s : Span) (regex_start : Nat) : Bool :=
  _match_from M (matchers.drop regex_start) s

/-- The C library function `isspace`, in the "C" locale. -/
def isspace (c : Char) : Bool := c == ' ' || (9 ≤ c.toNat && c.toNat ≤ 13)

/-- The C library function `isdigit`. -/
def isdigit (c : Char) : Bool := 48 ≤ c.toNat && c.toNat ≤ 57

/-- The digits at the start of a C string, read as a decimal number on top of `acc`. -/
def atoiDigits : List Char → Int → Int
  | [], acc => acc
  | c :: cs, acc => if isdigit c then atoiDigits cs (10 * acc + ((c.toNat : Int) - 48)) else acc

/-- The C library function `atoi` on the characters from a pointer on: white space, an
optional sign, then digits up to the first other character (the terminating 0
included).  The value is taken to fit an `int`. -/
def atoi (s : List Char) : Int :=
  match s.dropWhile isspace with
  | [] => 0
  | c :: cs =>
    if c = '-' then - atoiDigits cs 0
    else if c = '+' then atoiDigits cs 0
    else atoiDigits (c :: cs) 0

/-- The function `parse_range`: the fields `n1`, `n2` of the result; `none` when the
string has no comma (`find` returns `npos` and `r[idx]` is outside the string). -/
def parse_range (r : List Char) : Option (Int × Int) :=
  -- auto idx = r.find(',');
  let idx := r.indexOf ','
  if r.length ≤ idx then none
  else
    -- r[idx] = 0; result.n1 = atoi(r.data());
    let r1 := r.set idx NUL
    let n1 := atoi r1
    -- auto c = r[r.size() - 1]; r[r.size() - 1] = 0;
    let c := r1.getD (r1.length - 1) NUL
    let r2 := r1.set (r1.length - 1) NUL
    -- result.n2 = 10 * atoi(r.data() + idx + 1) + (c - 48);
    let n2 := 10 * atoi (r2.drop (idx + 1)) + ((c.toNat : Int) - 48)
    some (n1, n2)

/-- Conversion of an `int` to `size_t`. -/
def toSizeT (n : Int) : Nat := (n % 2 ^ 64).toNat

/-- The constructor `RangeMatcher(c, n1, n2)`: `none` when it throws. -/
def mkRangeMatcher (c : Char) (n1 n2 : Nat) : Option BaseMatcher :=
  if n2 = 0 || n1 > n2 then none else some (.RangeMatcher c n1 n2)

/-- The function `parse_regex`: `none` when `parse_range` is undefined or the constructor
throws. -/
def parse_regex (c : Char) (regex : List Char) : Option BaseMatcher :=
  if regex = [] then some (.SingleMatcher c)
  else if regex = ['*'] then some (.StarMatcher c)
  else if regex = ['+'] then some (.PlusMatcher c)
  else
    match parse_range regex with
    | none => none
    | some r => mkRangeMatcher c (toSizeT r.1) (toSizeT r.2)

/-- The test `c >= 'a' && c <= 'z'` of `parse`. -/
def isLower (c : Char) : Bool := 97 ≤ c.toNat && c.toNat ≤ 122

/-- The vector `indexes` of `parse`: the positions of the lower-case letters. -/
def letterIndexes (regex : List Char) : List Nat :=
  (List.range regex.length).filter (fun i => isLower (regex.getD i NUL))

/-- The second loop of `parse` over the indexes not yet handled: the matcher for
the letter at the first index, built from the text that follows it, up to the next
index or up to where the regex stops; then the rest. -/
def parseLoop (regex : List Char) : List Nat → Option (List BaseMatcher)
  | [] => some []
  | idx :: rest =>
    let c := regex.getD idx NUL
    let low := idx + 1
    -- (i < indexes.size() - 1) ? indexes[i + 1] : regex.size()
    let high := rest.headD regex.length
    -- regex.substr(low, high - low)
    match parse_regex c ((regex.drop low).take (high - low)) with
    | none => none
    | some m =>
      match parseLoop regex rest with
      | none => none
      | some v => some (m :: v)

/-- The function `parse`. -/
def parse (regex : List Char) : Option (List BaseMatcher) :=
  parseLoop regex (letterIndexes regex)

/-- The memory a `std::string` with the characters `s` gives: its characters at
the addresses `0 .. size - 1`, the terminating 0 at address `size`, and the bytes
`env` of the surroundings everywhere else. -/
def subjectMem (s : List Char) (env : Mem) : Mem :=
  fun a => if 0 ≤ a ∧ a < s.length then s.getD a.toNat NUL else if a = s.length then NUL else env a

/-- The function `matches`: `none` when `parse` does not return. -/
def «matches» (env : Mem) (s regex : List Char) : Option Bool :=
  match parse regex with
  | none => none
  | some matchers => some (_match (subjectMem s env) matchers { buf_ := 0, N_ := s.length } 0)

/-- The operator that may follow a letter of a regex: none, `*` or `+`. -/
inductive Rep where
  | one
  | star
  | plus
deriving DecidableEq

/-- The text of the operator. -/
def Rep.text : Rep → List Char
  | .one => []
  | .star => ['*']
  | .plus => ['+']

/-- The run lengths the operator allows: exactly one, zero or more, one or more. -/
def Rep.allows : Rep → Nat → Prop
  | .one, k => k = 1
  | .star, _ => True
  | .plus, k => 1 ≤ k

/-- The regex that is the letters of `items` in order, each followed by its
operator. -/
def render : List (Char × Rep) → List Char
  | [] => []
  | it :: items => it.1 :: (it.2.text ++ render items)

/-- The string `s` can be cut into consecutive runs, one per item in order, the
run of an item `(c, r)` being `k` copies of `c` for a `k` that `r` allows, with
nothing of `s` left over. -/
inductive Cut : List (Char × Rep) → List Char → Prop where
  | nil : Cut [] []
  | cons (c : Char) (r : Rep) (k : Nat) (items : List (Char × Rep)) (s : List Char) :
      r.allows k → Cut items s → Cut ((c, r) :: items) (List.replicate k c ++ s)

/-- The matcher `parse_regex` builds for a letter and its operator. -/
def itemMatcher : Char × Rep → BaseMatcher
  | (c, .one) => .SingleMatcher c
  | (c, .star) => .StarMatcher c
  | (c, .plus) => .PlusMatcher c

/-- The span that is the suffix of the subject string `s` from offset `off` on. -/
def suffixSpan (s : List Char) (off : Nat) : Span :=
  { buf_ := off, N_ := s.length - off }

/-- The number of copies of `c` a string starts with. -/
def lead (c : Char) : List Char → Nat
  | [] => 0
  | x :: xs => if x = c then lead c xs + 1 else 0

/-- Surroundings that hold the byte 0 everywhere. -/
def zeroMem : Mem := fun _ => NUL

/-- Surroundings that hold the letter a everywhere. -/
def aMem : Mem := fun _ => 'a'

end Regex

namespace Queue

/-! ## Encoding of sizes -/

theorem le_bytes_length (k n : Nat) : (le_bytes k n).length = k := by
  induction k generalizing n with
  | zero => rfl
  | succ k ih => simp [le_bytes, ih]

theorem le_val_le_bytes (k n : Nat) : le_val (le_bytes k n) = n % 256 ^ k := by
  induction k generalizing n with
  | zero => simp [le_bytes, le_val, Nat.mod_one]
  | succ k ih => simp [le_bytes, le_val, ih, pow_succ', Nat.mod_mul]

theorem le_val_size (n : Nat) (h : n < 2 ^ 64) : le_val (le_bytes SIZEOF_SIZE_T n) = n := by
  rw [le_val_le_bytes]
  exact Nat.mod_eq_of_lt (by norm_num at h ⊢; exact h)

theorem le_val_lt (bs : List Byte) : le_val bs < 256 ^ bs.length := by
  induction bs with
  | nil => simp [le_val]
  | cons b bs ih =>
    have hb := b.isLt
    simp only [le_val, List.length_cons, pow_succ]
    omega

theorem frame_length (p : Payload) : (frame p).length = 8 + p.val.length := by
  simp [frame, le_bytes_length]


/-! ## Streams -/

theorem ifs_read_exact (pre mid post : List Byte) :
    IFStream.read { is_open := true, pos := pre.length, fail := false }
        (pre ++ mid ++ post) mid.length
      = (mid, { is_open := true, pos := pre.length + mid.length, fail := false }) := by
  simp [IFStream.read, List.append_assoc]

theorem ifs_read_short (pre part : List Byte) (n : Nat) (h : part.length < n) :
    IFStream.read { is_open := true, pos := pre.length, fail := false } (pre ++ part) n
      = (part, { is_open := true, pos := pre.length + part.length, fail := true }) := by
  have h1 : min n part.length = part.length := by omega
  have h2 : List.take n part = part := List.take_of_length_le (by omega)
  simp [IFStream.read, h1, h2, h]

theorem ofs_write_good (b bytes : List Byte) :
    OFStream.write { buf := b, bad := false } bytes = { buf := b ++ bytes, bad := false } := by
  simp [OFStream.write]

theorem ofs_flush_good (b file : List Byte) :
    OFStream.flush { buf := b, bad := false } file none
      = ({ buf := [], bad := false }, file ++ b) := by
  simp [OFStream.flush]

/-! ## One call of `read` at a complete frame -/

theorem read_at_frame (t : Topic) (cid : ConsumerID) (x0 : Nat) (pre post : List Byte)
    (p : Payload) (c : Nat)
    (hfile : t.file = pre ++ frame p ++ post)
    (hm : t.consumers_.get cid
      = { ifs := { is_open := true, pos := pre.length, fail := false }, consumed := c })
    (hc : c ≠ t.written_) :
    t.read cid x0 = .returned p.val { t with
      consumers_ := t.consumers_.set cid
        { ifs := { is_open := true, pos := pre.length + (frame p).length, fail := false },
          consumed := c + 1 } } := by
  have h1 : IFStream.read { is_open := true, pos := pre.length, fail := false } t.file
      SIZEOF_SIZE_T = (le_bytes SIZEOF_SIZE_T p.val.length,
        { is_open := true, pos := pre.length + SIZEOF_SIZE_T, fail := false }) := by
    have h := ifs_read_exact pre (le_bytes SIZEOF_SIZE_T p.val.length) (p.val ++ post)
    rw [le_bytes_length] at h
    rw [hfile, frame, ← h]
    simp [List.append_assoc]
  have h2 : IFStream.read { is_open := true, pos := pre.length + SIZEOF_SIZE_T, fail := false }
      t.file p.val.length = (p.val,
        { is_open := true, pos := pre.length + SIZEOF_SIZE_T + p.val.length, fail := false }) := by
    have h := ifs_read_exact (pre ++ le_bytes SIZEOF_SIZE_T p.val.length) p.val post
    simp only [List.length_append, le_bytes_length] at h
    rw [hfile, frame, ← h]
    simp [List.append_assoc]
  have hd : List.drop SIZEOF_SIZE_T (le_bytes SIZEOF_SIZE_T x0) = [] :=
    List.drop_eq_nil_of_le (by rw [le_bytes_length])
  unfold Topic.read
  simp only [hm, if_neg hc, h1, le_bytes_length, hd, List.append_nil,
    le_val_size _ p.property, h2, Nat.sub_self, List.replicate_zero, frame_length]
  simp [Nat.add_assoc]

/-! ## Frames of a store -/

theorem frames_nil : frames [] = [] := rfl

theorem frames_cons (p : Payload) (ps : List Payload) :
    frames (p :: ps) = frame p ++ frames ps := by
  simp [frames]

theorem frames_append (ps qs : List Payload) : frames (ps ++ qs) = frames ps ++ frames qs := by
  simp [frames]

theorem frames_length_ge (ps : List Payload) : ps.length ≤ (frames ps).length := by
  induction ps with
  | nil => simp
  | cons p ps ih =>
    rw [frames_cons, List.length_append, frame_length, List.length_cons]
    omega

theorem framesOfAux_nil (fuel : Nat) : framesOfAux fuel [] = [] := by
  cases fuel <;> simp [framesOfAux]

theorem tailOfAux_nil (fuel : Nat) : tailOfAux fuel [] = [] := by
  cases fuel <;> simp [tailOfAux]

theorem frame_take (p : Payload) (rest : List Byte) :
    (frame p ++ rest).take SIZEOF_SIZE_T = le_bytes SIZEOF_SIZE_T p.val.length := by
  rw [frame, List.append_assoc]
  exact List.take_left' (le_bytes_length _ _)

theorem frame_drop (p : Payload) (rest : List Byte) :
    (frame p ++ rest).drop SIZEOF_SIZE_T = p.val ++ rest := by
  rw [frame, List.append_assoc]
  exact List.drop_left' (le_bytes_length _ _)

theorem framesOfAux_frames (ps : List Payload) (fuel : Nat) (h : ps.length ≤ fuel) :
    framesOfAux fuel (frames ps) = ps.map Subtype.val := by
  induction ps generalizing fuel with
  | nil => rw [frames_nil, framesOfAux_nil]; rfl
  | cons p ps ih =>
    cases fuel with
    | zero => simp at h
    | succ fuel =>
      have hlen : ¬ (frame p ++ frames ps).length < SIZEOF_SIZE_T := by
        rw [List.length_append, frame_length]; show ¬ _ < 8; omega
      rw [frames_cons, framesOfAux, if_neg hlen]
      simp only [frame_take, frame_drop, le_val_size _ p.property]
      have h2 : ¬ (p.val ++ frames ps).length < p.val.length := by simp
      rw [if_neg h2]
      simp [ih fuel (by simpa using h)]

theorem tailOfAux_frames (ps : List Payload) (fuel : Nat) (h : ps.length ≤ fuel) :
    tailOfAux fuel (frames ps) = [] := by
  induction ps generalizing fuel with
  | nil => rw [frames_nil, tailOfAux_nil]
  | cons p ps ih =>
    cases fuel with
    | zero => simp at h
    | succ fuel =>
      have hlen : ¬ (frame p ++ frames ps).length < SIZEOF_SIZE_T := by
        rw [List.length_append, frame_length]; show ¬ _ < 8; omega
      rw [frames_cons, tailOfAux, if_neg hlen]
      simp only [frame_take, frame_drop, le_val_size _ p.property]
      have h2 : ¬ (p.val ++ frames ps).length < p.val.length := by simp
      rw [if_neg h2]
      simp [ih fuel (by simpa using h)]

theorem framesOf_frames (ps : List Payload) : framesOf (frames ps) = ps.map Subtype.val :=
  framesOfAux_frames ps _ (frames_length_ge ps)

theorem tailOf_frames (ps : List Payload) : tailOf (frames ps) = [] :=
  tailOfAux_frames ps _ (frames_length_ge ps)

/-! ## The writer -/

theorem write_flushed_good (t : Topic) (p : Payload)
    (h : t.writer_ = { buf := [], bad := false }) :
    t.write_flushed p none = { t with file := t.file ++ frame p } := by
  unfold Topic.write_flushed
  simp [h, ofs_write_good, ofs_flush_good, frame]

theorem write__good (t : Topic) (p : Payload) (h : t.writer_ = { buf := [], bad := false }) :
    t.write_ p none = { t with file := t.file ++ frame p, written_ := t.written_ + 1 } := by
  unfold Topic.write_
  rw [write_flushed_good t p h]

/-! ## Runs -/

theorem run_nil (t : Topic) : run [] t = t := rfl

theorem run_cons (o : Op) (ops : List Op) (t : Topic) :
    run (o :: ops) t = run ops (o.apply t) := rfl

theorem run_append (ops₁ ops₂ : List Op) (t : Topic) :
    run (ops₁ ++ ops₂) t = run ops₂ (run ops₁ t) := by
  simp [run, List.foldl_append]

theorem runEvents_cons (e : Event) (es : List Event) (t : Topic) :
    runEvents (e :: es) t = runEvents es (e.apply t) := rfl

theorem runEvents_append (es₁ es₂ : List Event) (t : Topic) :
    runEvents (es₁ ++ es₂) t = runEvents es₂ (runEvents es₁ t) := by
  simp [runEvents, List.foldl_append]

theorem enqueued_cons (o : Op) (ops : List Op) :
    enqueued (o :: ops) = enqueued [o] ++ enqueued ops := by
  cases o <;> simp [enqueued]

theorem enqueued_append (ops more : List Op) :
    enqueued (ops ++ more) = enqueued ops ++ enqueued more := by
  induction ops with
  | nil => rfl
  | cons o ops ih =>
    rw [List.cons_append, enqueued_cons, enqueued_cons o ops, ih, List.append_assoc]

theorem read_state_fields (t : Topic) (cid : ConsumerID) (x0 : Nat) :
    (t.read cid x0).state.file = t.file ∧ (t.read cid x0).state.writer_ = t.writer_ ∧
      (t.read cid x0).state.queue_ = t.queue_ ∧ (t.read cid x0).state.written_ = t.written_ ∧
      (t.read cid x0).state.cur_id_ = t.cur_id_ := by
  unfold Topic.read
  by_cases h : (t.consumers_.get cid).consumed = t.written_ <;>
    simp [h, Topic.ReadResult.state]

theorem get_set_same (m : ConsumerMap) (k : ConsumerID) (v : ConsumerMeta) :
    (m.set k v).get k = v := by
  simp [ConsumerMap.get, ConsumerMap.set]

theorem set_ne (m : ConsumerMap) (k j : ConsumerID) (v : ConsumerMeta) (h : j ≠ k) :
    (m.set k v) j = m j := by
  simp [ConsumerMap.set, h]

theorem set_same (m : ConsumerMap) (k : ConsumerID) (v : ConsumerMeta) :
    (m.set k v) k = some v := by
  simp [ConsumerMap.set]

theorem get_of_some (m : ConsumerMap) (k : ConsumerID) (v : ConsumerMeta) (h : m k = some v) :
    m.get k = v := by
  simp [ConsumerMap.get, h]

theorem list_split_at {α : Type} (l : List α) (c : Nat) (h : c < l.length) :
    ∃ p, l = l.take c ++ p :: l.drop (c + 1) ∧ l.take (c + 1) = l.take c ++ [p] ∧
      l[c]? = some p := by
  induction l generalizing c with
  | nil => simp at h
  | cons a l ih =>
    cases c with
    | zero => exact ⟨a, by simp⟩
    | succ c =>
      obtain ⟨p, h1, h2, h3⟩ := ih c (by simpa using h)
      refine ⟨p, ?_, ?_, ?_⟩
      · simp only [List.take_succ_cons, List.drop_succ_cons, List.cons_append]
        rw [← h1]
      · simp only [List.take_succ_cons, List.cons_append]
        rw [h2]
      · simpa using h3

theorem inv_init : Inv Topic.init [] :=
  ⟨rfl, [], rfl, rfl, rfl, fun cid h => absurd h (Nat.not_lt_zero cid)⟩

/-- A `read` by a registered consumer in a state that satisfies the invariant:
it waits when `consumed = written_`, and otherwise returns payload number
`consumed` of the history and moves to the next frame. -/
theorem read_of_inv (t : Topic) (hist : List Payload) (h : Inv t hist) (cid : ConsumerID)
    (hcid : cid < t.cur_id_) (x0 : Nat) :
    ((t.consumers_.get cid).consumed = t.written_ ∧ t.read cid x0 = .blocked t) ∨
      ((t.consumers_.get cid).consumed < t.written_ ∧ ∃ p : Payload,
        hist[(t.consumers_.get cid).consumed]? = some p ∧
        t.read cid x0 = .returned p.val { t with
          consumers_ := t.consumers_.set cid
            { ifs := { is_open := true,
                       pos := (frames (hist.take ((t.consumers_.get cid).consumed + 1))).length,
                       fail := false },
              consumed := (t.consumers_.get cid).consumed + 1 } }) := by
  obtain ⟨_, stored, hh, hf, hn, hc⟩ := h
  obtain ⟨c, hcle, hm⟩ := hc cid hcid
  have hget := get_of_some _ _ _ hm
  rw [hget]
  simp only
  by_cases hcw : c = t.written_
  · left
    refine ⟨hcw, ?_⟩
    unfold Topic.read
    rw [hget]
    simp only [if_pos hcw]
    have hs : t.consumers_.set cid
        { ifs := { is_open := true, pos := (frames (stored.take c)).length, fail := false },
          consumed := c } = t.consumers_ := by
      funext j
      by_cases hj : j = cid
      · subst hj; rw [set_same, hm]
      · rw [set_ne _ _ _ _ hj]
    rw [hs]
  · right
    have hlt : c < stored.length := by omega
    obtain ⟨p, h1, h2, h3⟩ := list_split_at stored c hlt
    refine ⟨by omega, p, ?_, ?_⟩
    · rw [hh, List.getElem?_append_left hlt, h3]
    · have hfile : t.file = frames (stored.take c) ++ frame p ++ frames (stored.drop (c + 1)) := by
        rw [hf]
        conv_lhs => rw [h1]
        simp [frames_append, frames_cons]
      rw [read_at_frame t cid x0 _ _ p c hfile hget hcw]
      have htk : hist.take (c + 1) = stored.take c ++ [p] := by
        rw [hh, List.take_append_of_le_length (by omega), h2]
      rw [htk]
      simp [frames_append, frames_cons, frames_nil]

theorem inv_step (o : Op) (t : Topic) (hist : List Payload) (h : Inv t hist) :
    Inv (o.apply t) (hist ++ enqueued [o]) := by
  have hread := read_of_inv t hist h
  obtain ⟨hw, stored, hh, hf, hn, hc⟩ := h
  cases o with
  | write s =>
    exact ⟨hw, stored, by simp [Op.apply, Topic.write, enqueued, hh], hf, hn, hc⟩
  | writerStep =>
    simp only [Op.apply, Topic.writerStep, enqueued, List.append_nil]
    cases hq : t.queue_ with
    | nil => exact ⟨hw, stored, by rw [hh], hf, hn, hc⟩
    | cons p rest =>
      simp only
      rw [write__good { t with queue_ := rest } p hw]
      refine ⟨hw, stored ++ [p], ?_, ?_, ?_, ?_⟩
      · simp [hh, hq]
      · simp [hf, frames_append, frames_cons, frames_nil]
      · simp [hn]
      · intro cid hcid
        obtain ⟨c, hcle, hm⟩ := hc cid hcid
        refine ⟨c, by simp; omega, ?_⟩
        show t.consumers_ cid = _
        rw [hm, List.take_append_of_le_length hcle]
  | registerConsumer =>
    refine ⟨hw, stored, by simp [Op.apply, Topic.registerConsumer, enqueued, hh], hf, hn, ?_⟩
    intro cid hcid
    replace hcid : cid < t.cur_id_ + 1 := hcid
    show ∃ c, c ≤ stored.length ∧
      (t.consumers_.set t.cur_id_ { ifs := IFStream.opened, consumed := 0 }) cid = _
    by_cases hnew : cid = t.cur_id_
    · subst hnew
      exact ⟨0, Nat.zero_le _, by simp [set_same, IFStream.opened, frames_nil]⟩
    · obtain ⟨c, hcle, hm⟩ := hc cid (by unfold ConsumerID at *; omega)
      exact ⟨c, hcle, by rw [set_ne _ _ _ _ hnew, hm]⟩
  | read cid x0 =>
    obtain ⟨h1, h2, h3, h4, h5⟩ := read_state_fields t cid x0
    refine ⟨by simp [Op.apply, h2, hw], stored, ?_, ?_, ?_, ?_⟩
    · simp [Op.apply, enqueued, h3, hh]
    · simp [Op.apply, h1, hf]
    · simp [Op.apply, h4, hn]
    · intro b hb
      replace hb : b < (t.read cid x0).state.cur_id_ := hb
      rw [h5] at hb
      show ∃ c, c ≤ stored.length ∧ (t.read cid x0).state.consumers_ b = _
      by_cases hreg : cid < t.cur_id_
      · rcases hread cid hreg x0 with ⟨_, hb'⟩ | ⟨hlt, p, hp, hr⟩
        · rw [hb']
          exact hc b hb
        · rw [hr]
          simp only [Topic.ReadResult.state]
          by_cases hbc : b = cid
          · subst hbc
            refine ⟨(t.consumers_.get b).consumed + 1, by omega, ?_⟩
            rw [set_same, hh, List.take_append_of_le_length (by omega)]
          · rw [set_ne _ _ _ _ hbc]
            exact hc b hb
      · have hbc : b ≠ cid := by unfold ConsumerID at *; omega
        obtain ⟨c, hcle, hm⟩ := hc b hb
        refine ⟨c, hcle, ?_⟩
        rw [← hm]
        unfold Topic.read
        by_cases hcw : (t.consumers_.get cid).consumed = t.written_ <;>
          simp [hcw, Topic.ReadResult.state, set_ne _ _ _ _ hbc]

theorem inv_run (ops : List Op) (t : Topic) (hist : List Payload) (h : Inv t hist) :
    Inv (run ops t) (hist ++ enqueued ops) := by
  induction ops generalizing t hist with
  | nil => simpa [enqueued] using h
  | cons o ops ih =>
    rw [run_cons, enqueued_cons, ← List.append_assoc]
    exact ih _ _ (inv_step o t hist h)

theorem inv_reach (ops : List Op) : Inv (run ops Topic.init) (enqueued ops) := by
  simpa using inv_run ops Topic.init [] inv_init

theorem le_bytes_getElem? (k n i : Nat) (h : i < k) :
    ((le_bytes k n)[i]?).map Fin.val = some (n / 256 ^ i % 256) := by
  induction k generalizing n i with
  | zero => omega
  | succ k ih =>
    cases i with
    | zero => simp [le_bytes]
    | succ i =>
      simp only [le_bytes, List.getElem?_cons_succ]
      rw [ih (n / 256) i (by omega), Nat.div_div_eq_div_mul, pow_succ']

theorem write_flushed_fields (t : Topic) (p : Payload) (room : Option Nat) :
    (t.write_flushed p room).written_ = t.written_ ∧
      (t.write_flushed p room).queue_ = t.queue_ ∧
      (t.write_flushed p room).consumers_ = t.consumers_ ∧
      (t.write_flushed p room).cur_id_ = t.cur_id_ :=
  ⟨rfl, rfl, rfl, rfl⟩

theorem writerStep_fields (t : Topic) (room : Option Nat) :
    t.written_ ≤ (t.writerStep room).written_ ∧
      (t.writerStep room).consumers_ = t.consumers_ ∧
      (t.writerStep room).cur_id_ = t.cur_id_ := by
  unfold Topic.writerStep
  cases t.queue_ with
  | nil => simp
  | cons p rest => simp [Topic.write_, Topic.write_flushed]

theorem written_mono_event (e : Event) (t : Topic) : t.written_ ≤ (e.apply t).written_ := by
  cases e with
  | op o =>
    cases o with
    | write s => simp [Event.apply, Op.apply, Topic.write]
    | writerStep => exact (writerStep_fields t none).1
    | registerConsumer => simp [Event.apply, Op.apply, Topic.registerConsumer]
    | read cid x0 =>
      simp [Event.apply, Op.apply, (read_state_fields t cid x0).2.2.2.1]
  | shortAppend k => exact (writerStep_fields t (some k)).1

theorem written_mono_run (es : List Event) (t : Topic) :
    t.written_ ≤ (runEvents es t).written_ := by
  induction es generalizing t with
  | nil => exact Nat.le_refl _
  | cons e es ih =>
    rw [runEvents_cons]
    exact Nat.le_trans (written_mono_event e t) (ih _)

theorem inv_take_drop (t : Topic) (hist : List Payload) (h : Inv t hist) :
    t.file = frames (hist.take t.written_) ∧ t.queue_ = hist.drop t.written_ := by
  obtain ⟨_, stored, hh, hf, hn, _⟩ := h
  subst hh
  rw [hn, List.take_left, List.drop_left]
  exact ⟨hf, rfl⟩

/-! ## Consecutive reads -/

theorem readN_frames (cid : ConsumerID) (rest stored : List Payload) (post : List Byte)
    (junk : Nat → Nat) (t : Topic)
    (hfile : t.file = frames (stored ++ rest) ++ post)
    (hwr : stored.length + rest.length ≤ t.written_)
    (hm : t.consumers_.get cid
      = { ifs := { is_open := true, pos := (frames stored).length, fail := false },
          consumed := stored.length }) :
    ∃ t', readN cid rest.length junk t = some (rest.map Subtype.val, t') ∧
      t'.file = t.file ∧ t'.written_ = t.written_ ∧
      t'.consumers_.get cid
        = { ifs := { is_open := true, pos := (frames (stored ++ rest)).length, fail := false },
            consumed := stored.length + rest.length } := by
  induction rest generalizing stored junk t with
  | nil => exact ⟨t, rfl, rfl, rfl, by simpa using hm⟩
  | cons p rest ih =>
    have hc : stored.length ≠ t.written_ := by
      simp only [List.length_cons] at hwr; omega
    have hfile' : t.file = frames stored ++ frame p ++ (frames rest ++ post) := by
      rw [hfile]; simp [frames_append, frames_cons]
    have hr := read_at_frame t cid (junk 0) _ _ p _ hfile' hm hc
    obtain ⟨t', h1, h2, h3, h4⟩ := ih (stored ++ [p]) (fun i => junk (i + 1))
      { t with consumers_ := (t.consumers_.set cid
          { ifs := { is_open := true, pos := (frames stored).length + (frame p).length,
                     fail := false },
            consumed := stored.length + 1 }) }
      (by simpa using hfile)
      (by simp only [List.length_append, List.length_cons, List.length_nil] at hwr ⊢; omega)
      (by rw [get_set_same]; simp [frames_append, frames_cons, frames_nil])
    refine ⟨t', ?_, h2, h3, ?_⟩
    · simp only [List.length_cons, readN, hr, h1, Option.map_some', List.map_cons]
    · rw [h4]
      simp [Nat.add_assoc, Nat.add_comm 1]

/-! ## Invariants of every run, short appends included -/

theorem consumed_le_event (e : Event) (t : Topic)
    (h : ∀ cid, (t.consumers_.get cid).consumed ≤ t.written_) :
    ∀ cid, ((e.apply t).consumers_.get cid).consumed ≤ (e.apply t).written_ := by
  have hstep : ∀ room cid,
      ((t.writerStep room).consumers_.get cid).consumed ≤ (t.writerStep room).written_ := by
    intro room cid
    rw [(writerStep_fields t room).2.1]
    exact Nat.le_trans (h cid) (writerStep_fields t room).1
  intro cid
  cases e with
  | op o =>
    cases o with
    | write s => exact h cid
    | writerStep => exact hstep none cid
    | registerConsumer =>
      show ((t.consumers_.set t.cur_id_ _).get cid).consumed ≤ t.written_
      by_cases hc : cid = t.cur_id_
      · subst hc; rw [get_set_same]; exact Nat.zero_le _
      · have := h cid
        simpa [ConsumerMap.get, set_ne _ _ _ _ hc] using this
    | read a x0 =>
      show ((t.read a x0).state.consumers_.get cid).consumed ≤ (t.read a x0).state.written_
      rw [(read_state_fields t a x0).2.2.2.1]
      unfold Topic.read
      by_cases hw : (t.consumers_.get a).consumed = t.written_
      · simp only [if_pos hw, Topic.ReadResult.state]
        by_cases hc : cid = a
        · subst hc; rw [get_set_same]; exact h cid
        · have := h cid
          simpa [ConsumerMap.get, set_ne _ _ _ _ hc] using this
      · simp only [if_neg hw, Topic.ReadResult.state]
        by_cases hc : cid = a
        · subst hc
          rw [get_set_same]
          have := h cid
          show (t.consumers_.get cid).consumed + 1 ≤ t.written_
          omega
        · have := h cid
          simpa [ConsumerMap.get, set_ne _ _ _ _ hc] using this
  | shortAppend k => exact hstep (some k) cid

theorem consumed_le_run (es : List Event) (t : Topic)
    (h : ∀ cid, (t.consumers_.get cid).consumed ≤ t.written_) :
    ∀ cid, ((runEvents es t).consumers_.get cid).consumed ≤ (runEvents es t).written_ := by
  induction es generalizing t with
  | nil => exact h
  | cons e es ih =>
    rw [runEvents_cons]
    exact ih _ (consumed_le_event e t h)

theorem consumed_le_reach (es : List Event) (cid : ConsumerID) :
    ((runEvents es Topic.init).consumers_.get cid).consumed
      ≤ (runEvents es Topic.init).written_ :=
  consumed_le_run es Topic.init (fun _ => Nat.zero_le _) cid

theorem event_cur_id (e : Event) (t : Topic) :
    (e.apply t).cur_id_ = t.cur_id_ + (if e.isRegister then 1 else 0) := by
  cases e with
  | op o =>
    cases o with
    | write s => rfl
    | writerStep => exact (writerStep_fields t none).2.2
    | registerConsumer => rfl
    | read a x0 => exact (read_state_fields t a x0).2.2.2.2
  | shortAppend k => exact (writerStep_fields t (some k)).2.2

theorem returnedIds_eq (es : List Event) (t : Topic) :
    returnedIds es t = List.range' t.cur_id_ (es.countP Event.isRegister) := by
  induction es generalizing t with
  | nil => rfl
  | cons e es ih =>
    by_cases hr : e.isRegister = true
    · have he : e = .op .registerConsumer := by
        cases e with
        | op o => cases o <;> simp_all [Event.isRegister]
        | shortAppend k => simp [Event.isRegister] at hr
      subst he
      rw [returnedIds, ih, List.countP_cons_of_pos _ _ hr, List.range'_succ]
      rfl
    · have hstep : returnedIds (e :: es) t = returnedIds es (e.apply t) := by
        cases e with
        | op o => cases o <;> first | rfl | exact absurd rfl hr
        | shortAppend k => rfl
      rw [hstep, ih, List.countP_cons_of_neg _ _ hr, event_cur_id]
      simp [hr]

/-! ## The claims -/

/-- C1 (round trip).  On a fresh topic, after `write(p)` and the iteration of the
writer loop that persists `p` with `write_`, the first `read` of a newly registered
consumer returns exactly the bytes of `p`, whatever the length of `p` and whatever
the uninitialised union held. -/
theorem round_trip_fresh_topic (p : Payload) (x0 : Nat) :
    let t := (Topic.init.write p).writerStep none
    (t.registerConsumer.2.read t.registerConsumer.1 x0).value = some p.val := by
  intro t
  have h := read_at_frame t.registerConsumer.2 t.registerConsumer.1 x0 [] [] p 0
    (by simp [t, Topic.registerConsumer, Topic.writerStep, Topic.write, Topic.init,
      write__good])
    (by simp [Topic.registerConsumer, ConsumerMap.get, ConsumerMap.set, IFStream.opened])
    (by simp [t, Topic.registerConsumer, Topic.writerStep, Topic.write, Topic.init,
      Topic.write_, Topic.write_flushed])
  rw [h]
  rfl

/-- C2 (global order, no loss, no duplicates).  After any sequence of operations
on a fresh topic, the payloads framed in the store followed by the payloads still in
the queue are the payloads handed to `write`, in call order: the store is the
frames of the first `written_` of them and nothing else, the queue holds the rest.
Once the queue is empty the store holds exactly the enqueued payloads, each once,
in order. -/
theorem global_order_no_loss_no_duplicates (ops : List Op) :
    let t := run ops Topic.init
    framesOf t.file ++ t.queue_.map Subtype.val = (enqueued ops).map Subtype.val ∧
      tailOf t.file = [] ∧
      t.file = frames ((enqueued ops).take t.written_) ∧
      t.queue_ = (enqueued ops).drop t.written_ ∧
      (t.queue_ = [] →
        framesOf t.file = (enqueued ops).map Subtype.val ∧
          (framesOf t.file).length = (enqueued ops).length) := by
  intro t
  have hinv : Inv t (enqueued ops) := inv_reach ops
  have htd := inv_take_drop t _ hinv
  obtain ⟨_, stored, hh, hf, hn, _⟩ := hinv
  have h1 : framesOf t.file ++ t.queue_.map Subtype.val = (enqueued ops).map Subtype.val := by
    rw [hf, framesOf_frames, hh, List.map_append]
  refine ⟨h1, by rw [hf, tailOf_frames], htd.1, htd.2, ?_⟩
  intro hq
  rw [hq, List.map_nil, List.append_nil] at h1
  exact ⟨h1, by rw [h1, List.length_map]⟩

/-- C4 (frame format).  In every state a fresh topic reaches, `write_` of a
payload `p` of length `N` leaves the store equal to the old store followed by 8
bytes and the `N` bytes of `p`; byte `i` of the 8 is `N / 256 ^ i % 256`, that is
`N` as an unsigned little-endian integer.  The old store is a prefix of the new one. -/
theorem write__appends_frame (ops : List Op) (p : Payload) :
    let t := run ops Topic.init
    (t.write_ p none).file = t.file ++ le_bytes 8 p.val.length ++ p.val ∧
      (le_bytes 8 p.val.length).length = 8 ∧
      (∀ i, i < 8 →
        ((le_bytes 8 p.val.length)[i]?).map Fin.val = some (p.val.length / 256 ^ i % 256)) ∧
      (t.write_ p none).file.take t.file.length = t.file := by
  intro t
  have hw : t.writer_ = { buf := [], bad := false } := (inv_reach ops).1
  have hf : (t.write_ p none).file = t.file ++ le_bytes 8 p.val.length ++ p.val := by
    rw [write__good t p hw]
    simp [frame]
  refine ⟨hf, le_bytes_length _ _, fun i hi => le_bytes_getElem? 8 _ i hi, ?_⟩
  rw [hf, List.append_assoc, List.take_left]

/-- C3 (independent full replay).  In any state whose store holds the frames of
`ps` and whose write counter is their number, a consumer registered there gets the
payloads `ps`, in order, from its first `ps.length` reads, whatever the other
consumers did.  And two consumers with the same consumed-count get the same payload
from their next read, also when the second reads in a later state of the run. -/
theorem independent_full_replay (t : Topic) (ps : List Payload) (junk : Nat → Nat)
    (hfile : t.file = frames ps) (hw : t.written_ = ps.length)
    (ops more : List Op) (a b : ConsumerID) (x y : Nat)
    (ha : a < (run ops Topic.init).cur_id_)
    (hb : b < (run (ops ++ more) Topic.init).cur_id_)
    (hi : ((run ops Topic.init).consumers_.get a).consumed
      = ((run (ops ++ more) Topic.init).consumers_.get b).consumed)
    (hlt : ((run ops Topic.init).consumers_.get a).consumed < (run ops Topic.init).written_) :
    (∃ t', readN t.registerConsumer.1 ps.length junk t.registerConsumer.2
        = some (ps.map Subtype.val, t')) ∧
      (∃ v, ((run ops Topic.init).read a x).value = some v ∧
        ((run (ops ++ more) Topic.init).read b y).value = some v) := by
  constructor
  · obtain ⟨t', h, _⟩ := readN_frames t.registerConsumer.1 ps [] [] junk t.registerConsumer.2
      (by simpa [Topic.registerConsumer] using hfile)
      (by simp [Topic.registerConsumer, hw])
      (by simp [Topic.registerConsumer, get_set_same, IFStream.opened, frames_nil])
    exact ⟨t', h⟩
  · have hmono : (run ops Topic.init).written_ ≤ (run (ops ++ more) Topic.init).written_ := by
      have h := written_mono_run (more.map Event.op) (run ops Topic.init)
      have e : runEvents (more.map Event.op) (run ops Topic.init)
          = run (ops ++ more) Topic.init := by
        rw [run_append]
        simp [runEvents, run, List.foldl_map, Event.apply]
      rwa [e] at h
    have hinv1 := inv_reach ops
    have hinv2 := inv_reach (ops ++ more)
    have hlen : ((run ops Topic.init).consumers_.get a).consumed < (enqueued ops).length := by
      obtain ⟨_, stored, hh, _, hn, _⟩ := hinv1
      rw [hh, List.length_append]
      omega
    have henq := enqueued_append ops more
    rcases read_of_inv _ _ hinv1 a ha x with ⟨h1, _⟩ | ⟨_, p, hp, hr⟩
    · omega
    · rcases read_of_inv _ _ hinv2 b hb y with ⟨h2, _⟩ | ⟨_, q, hq, hr2⟩
      · omega
      · rw [← hi, henq, List.getElem?_append_left hlen, hp] at hq
        refine ⟨p.val, by rw [hr]; rfl, ?_⟩
        rw [hr2]
        simp only [Option.some.injEq] at hq
        rw [← hq]
        rfl

/-- C6 (consumed-count bounded by the write counter).  In every state a fresh
topic reaches, short appends included, the consumed-count of every consumer is at
most `written_`; so it is in the state a `read` leaves. -/
theorem consumed_le_written (es : List Event) (cid : ConsumerID) (x0 : Nat) :
    let t := runEvents es Topic.init
    (t.consumers_.get cid).consumed ≤ t.written_ ∧
      ((t.read cid x0).state.consumers_.get cid).consumed ≤ (t.read cid x0).state.written_ := by
  intro t
  refine ⟨consumed_le_reach es cid, ?_⟩
  have h := consumed_le_reach (es ++ [.op (.read cid x0)]) cid
  rw [runEvents_append] at h
  exact h

/-- C7 (consumer ids).  From a fresh topic the calls of `registerConsumer` return
0, 1, 2, ... in call order, whatever else happens in between: the ids are strictly
increasing and pairwise different.  In any state the new consumer starts with an
open stream at offset 0 and consumed-count 0. -/
theorem consumer_ids_sequential (es : List Event) (t : Topic) :
    returnedIds es Topic.init = List.range (es.countP Event.isRegister) ∧
      (returnedIds es Topic.init).Pairwise (· < ·) ∧
      (returnedIds es Topic.init).Nodup ∧
      t.registerConsumer.2.consumers_ t.registerConsumer.1
        = some { ifs := { is_open := true, pos := 0, fail := false }, consumed := 0 } := by
  have h : returnedIds es Topic.init = List.range (es.countP Event.isRegister) := by
    rw [returnedIds_eq, List.range_eq_range']
    rfl
  refine ⟨h, ?_, ?_, ?_⟩
  · rw [h]; exact List.pairwise_lt_range _
  · rw [h]; exact List.nodup_range _
  · simp [Topic.registerConsumer, set_same, IFStream.opened]

/-- C8 (consumer isolation).  `read(a)` leaves the entry of every other consumer
`b` as it was (stream position, fail state, consumed-count), and leaves the store,
the write counter and the queue as they were; `registerConsumer` leaves the entry of
every id other than the one it hands out as it was. -/
theorem consumer_isolation (t : Topic) :
    (∀ (a b : ConsumerID) (x0 : Nat), a ≠ b →
      (t.read a x0).state.consumers_ b = t.consumers_ b ∧
        (t.read a x0).state.file = t.file ∧
        (t.read a x0).state.written_ = t.written_ ∧
        (t.read a x0).state.queue_ = t.queue_) ∧
      (∀ b : ConsumerID, b ≠ t.registerConsumer.1 →
        t.registerConsumer.2.consumers_ b = t.consumers_ b) := by
  constructor
  · intro a b x0 hab
    obtain ⟨h1, _, h3, h4, _⟩ := read_state_fields t a x0
    refine ⟨?_, h1, h4, h3⟩
    unfold Topic.read
    by_cases hw : (t.consumers_.get a).consumed = t.written_ <;>
      simp [hw, Topic.ReadResult.state, set_ne _ _ _ _ (Ne.symm hab)]
  · intro b hb
    exact set_ne _ _ _ _ hb

/-- C9 (blocking read).  In every state a fresh topic reaches, short appends
included: when the write counter does not exceed the consumed-count of `cid`,
`read(cid)` returns nothing and leaves the state as it was (for an id the map did
not hold it inserts the empty entry, with consumed-count 0); and when `read(cid)`
returns a string, the write counter was greater than the consumed-count. -/
theorem blocking_read (es : List Event) (cid : ConsumerID) (x0 : Nat) :
    let t := runEvents es Topic.init
    (t.written_ ≤ (t.consumers_.get cid).consumed →
        t.read cid x0
            = .blocked { t with consumers_ := t.consumers_.set cid (t.consumers_.get cid) } ∧
          (t.read cid x0).value = none ∧
          (t.read cid x0).state.consumers_.get cid = t.consumers_.get cid ∧
          (∀ m, t.consumers_ cid = some m → (t.read cid x0).state = t)) ∧
      (∀ s, (t.read cid x0).value = some s → (t.consumers_.get cid).consumed < t.written_) := by
  intro t
  have hle : (t.consumers_.get cid).consumed ≤ t.written_ := consumed_le_reach es cid
  constructor
  · intro h
    have heq : (t.consumers_.get cid).consumed = t.written_ := Nat.le_antisymm hle h
    have hr : t.read cid x0
        = .blocked { t with consumers_ := t.consumers_.set cid (t.consumers_.get cid) } := by
      unfold Topic.read
      simp only [if_pos heq]
    refine ⟨hr, by rw [hr]; rfl, by rw [hr]; exact get_set_same _ _ _, ?_⟩
    intro m hm
    rw [hr, get_of_some _ _ _ hm]
    have hs : t.consumers_.set cid m = t.consumers_ := by
      funext j
      by_cases hj : j = cid
      · subst hj; rw [set_same, hm]
      · rw [set_ne _ _ _ _ hj]
    simp only [Topic.ReadResult.state, hs]
  · intro s hs
    have hne : (t.consumers_.get cid).consumed ≠ t.written_ := by
      intro heq
      unfold Topic.read at hs
      simp [if_pos heq, Topic.ReadResult.value] at hs
    omega

/-- C10, counterexample.  The writer appends the frame of "abc" and the device
takes only 9 bytes: the store is the size 3 followed by one payload byte, a
truncated trailing frame, and `written_` is 1.  The first `read` of a new consumer,
whose cursor is at that frame, returns the 3-byte string "a\0\0". -/
theorem truncated_frame_is_returned :
    truncatedTopic.file = [3, 0, 0, 0, 0, 0, 0, 0, 97] ∧
      TruncatedAt truncatedTopic.file 0 ∧
      truncatedTopic.written_ = 1 ∧
      truncatedTopic.consumers_.get 0
        = { ifs := { is_open := true, pos := 0, fail := false }, consumed := 0 } ∧
      (truncatedTopic.read 0 0).value = some [97, 0, 0] := by
  decide

/-- C10, as amended.  The store ends in a truncated trailing frame: after `pre`
come the 8 bytes of a size `N` and the bytes `part`, fewer than `N`.  A `read` whose
cursor is at that frame returns nothing while the consumed-count equals the write
counter.  Otherwise it returns a string of `N` bytes, the bytes `part` followed by
zero bytes, counts the frame as consumed, and leaves the stream failed at the end of
the store. -/
theorem read_truncated_frame (t : Topic) (cid : ConsumerID) (x0 : Nat)
    (pre part : List Byte) (N c : Nat) (hN : N < 2 ^ 64) (hpart : part.length < N)
    (hfile : t.file = pre ++ le_bytes 8 N ++ part)
    (hm : t.consumers_.get cid
      = { ifs := { is_open := true, pos := pre.length, fail := false }, consumed := c }) :
    (c = t.written_ → (t.read cid x0).value = none) ∧
      (c ≠ t.written_ →
        (part ++ List.replicate (N - part.length) 0).length = N ∧
        t.read cid x0 = .returned (part ++ List.replicate (N - part.length) 0) { t with
          consumers_ := t.consumers_.set cid
            { ifs := { is_open := true, pos := t.file.length, fail := true },
              consumed := c + 1 } }) := by
  constructor
  · intro hc
    unfold Topic.read
    simp [hm, hc, Topic.ReadResult.value]
  · intro hc
    refine ⟨by simp; omega, ?_⟩
    have h1 : IFStream.read { is_open := true, pos := pre.length, fail := false } t.file
        SIZEOF_SIZE_T = (le_bytes 8 N,
          { is_open := true, pos := pre.length + 8, fail := false }) := by
      have h := ifs_read_exact pre (le_bytes 8 N) part
      rw [le_bytes_length] at h
      rw [hfile]
      exact h
    have h2 : IFStream.read { is_open := true, pos := pre.length + 8, fail := false }
        t.file N = (part, { is_open := true, pos := t.file.length, fail := true }) := by
      have h := ifs_read_short (pre ++ le_bytes 8 N) part N hpart
      simp only [List.length_append, le_bytes_length] at h
      rw [hfile, h]
      simp [le_bytes_length, Nat.add_assoc]
    have hd : List.drop 8 (le_bytes 8 x0) = [] :=
      List.drop_eq_nil_of_le (by rw [le_bytes_length])
    unfold Topic.read
    simp only [hm, if_neg hc, h1, le_bytes_length, hd, List.append_nil, le_val_size _ hN, h2]

/-! ## The claims at concrete inputs -/

/-- C2 at a concrete run: two payloads enqueued and both persisted, the queue is
empty and the store decodes to the two payloads in order. -/
theorem global_order_witness :
    (run opsAB Topic.init).queue_ = [] ∧
      (framesOf (run opsAB Topic.init).file = (enqueued opsAB).map Subtype.val ∧
        (framesOf (run opsAB Topic.init).file).length = (enqueued opsAB).length) :=
  ⟨by decide, (global_order_no_loss_no_duplicates opsAB).2.2.2.2 (by decide)⟩

/-- C3 at a concrete run: "A" and "B" are durable; a new consumer reads both in
order, and consumer 1, registered after consumer 0 has read one frame, gets from its
first read what consumer 0 got from its first read. -/
theorem independent_full_replay_witness :
    (run opsAB Topic.init).file = frames [strA, strB] ∧
      (run opsAB Topic.init).written_ = [strA, strB].length ∧
      (0 : ConsumerID) < (run opsAB0 Topic.init).cur_id_ ∧
      (1 : ConsumerID) < (run (opsAB0 ++ opsLater) Topic.init).cur_id_ ∧
      ((run opsAB0 Topic.init).consumers_.get 0).consumed
        = ((run (opsAB0 ++ opsLater) Topic.init).consumers_.get 1).consumed ∧
      ((run opsAB0 Topic.init).consumers_.get 0).consumed < (run opsAB0 Topic.init).written_ ∧
      ((∃ t', readN (run opsAB Topic.init).registerConsumer.1 [strA, strB].length (fun _ => 0)
            (run opsAB Topic.init).registerConsumer.2
          = some ([strA, strB].map Subtype.val, t')) ∧
        (∃ v, ((run opsAB0 Topic.init).read 0 0).value = some v ∧
          ((run (opsAB0 ++ opsLater) Topic.init).read 1 0).value = some v)) :=
  ⟨by decide, by decide, by decide, by decide, by decide, by decide,
    independent_full_replay (run opsAB Topic.init) [strA, strB] (fun _ => 0)
      (by decide) (by decide) opsAB0 opsLater 0 1 0 0
      (by decide) (by decide) (by decide) (by decide)⟩

/-- C4 at a concrete payload: byte 1 of the size written for "abc". -/
theorem write__appends_frame_witness :
    (1 : Nat) < 8 ∧
      ((le_bytes 8 abc.val.length)[1]?).map Fin.val = some (abc.val.length / 256 ^ 1 % 256) :=
  ⟨by decide, (write__appends_frame opsAB abc).2.2.1 1 (by decide)⟩

/-- C8 at a concrete state: a read of consumer 0 and a registration leave the
entries of the other ids as they were. -/
theorem consumer_isolation_witness :
    ((0 : ConsumerID) ≠ 1 ∧
        ((truncatedTopic.read 0 0).state.consumers_ 1 = truncatedTopic.consumers_ 1 ∧
          (truncatedTopic.read 0 0).state.file = truncatedTopic.file ∧
          (truncatedTopic.read 0 0).state.written_ = truncatedTopic.written_ ∧
          (truncatedTopic.read 0 0).state.queue_ = truncatedTopic.queue_)) ∧
      ((0 : ConsumerID) ≠ truncatedTopic.registerConsumer.1 ∧
        truncatedTopic.registerConsumer.2.consumers_ 0 = truncatedTopic.consumers_ 0) :=
  ⟨⟨by decide, (consumer_isolation truncatedTopic).1 0 1 0 (by decide)⟩,
    ⟨by decide, (consumer_isolation truncatedTopic).2 0 (by decide)⟩⟩

/-- C9 at concrete runs: with one frame durable the second read of consumer 0
returns nothing, and its first read, which returns "A", had consumed 0 below
`written_` 1. -/
theorem blocking_read_witness :
    ((runEvents [.op (.write strA), .op .writerStep, .op .registerConsumer, .op (.read 0 0)]
          Topic.init).written_
        ≤ ((runEvents [.op (.write strA), .op .writerStep, .op .registerConsumer,
            .op (.read 0 0)] Topic.init).consumers_.get 0).consumed ∧
      ((runEvents [.op (.write strA), .op .writerStep, .op .registerConsumer, .op (.read 0 0)]
          Topic.init).read 0 0).value = none) ∧
      (((runEvents [.op (.write strA), .op .writerStep, .op .registerConsumer]
          Topic.init).read 0 0).value = some [65] ∧
        ((runEvents [.op (.write strA), .op .writerStep, .op .registerConsumer]
          Topic.init).consumers_.get 0).consumed
          < (runEvents [.op (.write strA), .op .writerStep, .op .registerConsumer]
            Topic.init).written_) :=
  ⟨⟨by decide,
      ((blocking_read [.op (.write strA), .op .writerStep, .op .registerConsumer,
        .op (.read 0 0)] 0 0).1 (by decide)).2.1⟩,
    ⟨by decide,
      (blocking_read [.op (.write strA), .op .writerStep, .op .registerConsumer] 0 0).2
        [65] (by decide)⟩⟩

/-- C10 as amended, at the state of the counterexample. -/
theorem read_truncated_frame_witness :
    (3 : Nat) < 2 ^ 64 ∧ ([97] : List Byte).length < 3 ∧
      truncatedTopic.file = [] ++ le_bytes 8 3 ++ [97] ∧
      truncatedTopic.consumers_.get 0
        = { ifs := { is_open := true, pos := ([] : List Byte).length, fail := false },
            consumed := 0 } ∧
      0 ≠ truncatedTopic.written_ ∧
      (truncatedTopic.read 0 0).value = some [97, 0, 0] :=
  ⟨by decide, by decide, by decide, by decide, by decide, by
    rw [((read_truncated_frame truncatedTopic 0 0 [] [97] 3 0 (by decide) (by decide)
      (by decide) (by decide)).2 (by decide)).2]
    rfl⟩

/-! ## The claims about append failure, enqueue, the read step and the cursor -/

theorem frames_length_sum (ps : List Payload) :
    (frames ps).length = (ps.map (fun p => 8 + p.val.length)).sum := by
  induction ps with
  | nil => rfl
  | cons p ps ih => rw [frames_cons, List.length_append, frame_length, ih]; simp

theorem write__short (t : Topic) (p : Payload) (k : Nat)
    (hw : t.writer_ = { buf := [], bad := false }) (hk : k < (frame p).length) :
    t.write_ p (some k) = { t with
      file := t.file ++ (frame p).take k
      writer_ := { buf := (frame p).drop k, bad := true }
      written_ := t.written_ + 1 } := by
  have hk2 : ¬ (frame p).length ≤ k := by omega
  have hk3 : ¬ ((le_bytes SIZEOF_SIZE_T p.val.length).length + p.val.length ≤ k) := by
    rw [← List.length_append]; exact hk2
  simp [Topic.write_, Topic.write_flushed, hw, ofs_write_good, OFStream.flush, frame, hk3]

theorem write__bad (t : Topic) (q : Payload) (room : Option Nat) (hb : t.writer_.bad = true) :
    t.write_ q room = { t with written_ := t.written_ + 1 } := by
  simp [Topic.write_, Topic.write_flushed, OFStream.write, OFStream.flush, hb]

theorem read_ignores_writer (t : Topic) (w : OFStream) (cid : ConsumerID) (x0 : Nat) :
    ({ t with writer_ := w }.read cid x0).value = (t.read cid x0).value := by
  unfold Topic.read
  by_cases h : (t.consumers_.get cid).consumed = t.written_ <;>
    simp [h, Topic.ReadResult.value]

/-- C11, counterexample.  The append of the frame of "abc" is cut short after 9
bytes.  The store then holds no complete frame, yet `written_` is 1.  A later
`write` is accepted as on a healthy topic; the writer step for it leaves the store
as it was, although the device would now take everything, and `written_` becomes 2;
and the `read` of a new consumer returns a string. -/
theorem append_failure_is_silent :
    framesOf shortTopic.file = [] ∧ shortTopic.written_ = 1 ∧
      shortTopic.writer_.bad = true ∧
      (shortTopic.write strA).queue_ = [strA] ∧
      ((shortTopic.write strA).writerStep none).file = shortTopic.file ∧
      ((shortTopic.write strA).writerStep none).written_ = 2 ∧
      (shortTopic.registerConsumer.2.read 0 0).value = some [97, 0, 0] := by
  decide

/-- C11, as amended.  When the device takes only the first `k` bytes of a frame,
`write_` leaves those bytes in the store, leaves the output stream bad and still
increments `written_`.  On a topic whose output stream is bad, `write` queues the
payload as on any topic, `write_` leaves the store as it was and increments
`written_`, and what `read` returns does not depend on the state of the output
stream: no call reports the failure. -/
theorem append_failure_effect (ops : List Op) (p q : Payload) (k : Nat) (room : Option Nat)
    (t : Topic) (w : OFStream) (cid : ConsumerID) (x0 : Nat)
    (hk : k < (frame p).length) (hb : t.writer_.bad = true) :
    ((run ops Topic.init).write_ p (some k)).file
        = (run ops Topic.init).file ++ (frame p).take k ∧
      ((run ops Topic.init).write_ p (some k)).writer_.bad = true ∧
      ((run ops Topic.init).write_ p (some k)).written_ = (run ops Topic.init).written_ + 1 ∧
      (t.write q).queue_ = t.queue_ ++ [q] ∧
      (t.write q).writer_ = t.writer_ ∧
      t.write_ q room = { t with written_ := t.written_ + 1 } ∧
      ({ t with writer_ := w }.read cid x0).value = (t.read cid x0).value := by
  have hw : (run ops Topic.init).writer_ = { buf := [], bad := false } := (inv_reach ops).1
  rw [write__short _ p k hw hk]
  exact ⟨rfl, rfl, rfl, rfl, rfl, write__bad t q room hb, read_ignores_writer t w cid x0⟩

/-- C12 (effect of enqueue).  In every state, `write(p)` leaves `queue_` equal to
the old queue followed by `p`, and leaves the store, the write counter, the
consumers, the next id and the output stream as they were: it returns with `p`
queued and not yet in the store. -/
theorem write_enqueues_at_tail (t : Topic) (p : Payload) :
    (t.write p).queue_ = t.queue_ ++ [p] ∧
      (t.write p).file = t.file ∧
      (t.write p).written_ = t.written_ ∧
      (t.write p).consumers_ = t.consumers_ ∧
      (t.write p).cur_id_ = t.cur_id_ ∧
      (t.write p).writer_ = t.writer_ :=
  ⟨rfl, rfl, rfl, rfl, rfl, rfl⟩

/-- C17 (read step).  The store holds, after `pre`, the 8 bytes of a size `N` and
`N` payload bytes; the stream of consumer `cid` is open and good at the start of
that frame and its consumed-count is below `written_`.  Then `read(cid)` returns
exactly those `N` bytes, the stream stays good and stands `8 + N` bytes further, at
the end of the frame, and the consumed-count is one more. -/
theorem read_step (t : Topic) (cid : ConsumerID) (x0 : Nat) (pre payload post : List Byte)
    (N c : Nat) (hN : N < 2 ^ 64) (hlen : payload.length = N)
    (hfile : t.file = pre ++ le_bytes 8 N ++ payload ++ post)
    (hm : t.consumers_.get cid
      = { ifs := { is_open := true, pos := pre.length, fail := false }, consumed := c })
    (hlt : c < t.written_) :
    (t.read cid x0).value = some payload ∧
      (t.read cid x0).state.consumers_.get cid
        = { ifs := { is_open := true, pos := pre.length + (8 + N), fail := false },
            consumed := c + 1 } ∧
      pre.length + (8 + N) = (pre ++ le_bytes 8 N ++ payload).length := by
  have hr := read_at_frame t cid x0 pre post ⟨payload, by omega⟩ c
    (by rw [hfile]; simp [frame, hlen]) hm (by omega)
  rw [hr]
  refine ⟨rfl, ?_, ?_⟩
  · simp only [Topic.ReadResult.state, get_set_same, frame_length, hlen]
  · simp [le_bytes_length, hlen, Nat.add_assoc]

/-- C19 (cursor and consumed-count agree).  In every state a fresh topic reaches
by operations whose appends the device takes, the stream of every registered
consumer is open and good, its offset is the sum of `8 + length` over the first
`consumed` frames of the store, so it stands on a frame boundary inside the store,
and when `consumed` is below `written_` the next `read` returns frame number
`consumed` of the store. -/
theorem cursor_agrees_with_consumed (ops : List Op) (cid : ConsumerID) (x0 : Nat)
    (hreg : cid < (run ops Topic.init).cur_id_) :
    let t := run ops Topic.init
    let m := t.consumers_.get cid
    t.consumers_ cid = some m ∧ m.ifs.is_open = true ∧ m.ifs.fail = false ∧
      m.consumed ≤ (framesOf t.file).length ∧
      m.ifs.pos = (((framesOf t.file).take m.consumed).map (fun f => 8 + f.length)).sum ∧
      t.file.take m.ifs.pos = frames ((enqueued ops).take m.consumed) ∧
      (m.consumed < t.written_ →
        (t.read cid x0).value = (framesOf t.file)[m.consumed]? ∧
          (t.read cid x0).value ≠ none) := by
  intro t m
  have hinv : Inv t (enqueued ops) := inv_reach ops
  have hread := read_of_inv t _ hinv cid hreg x0
  obtain ⟨_, stored, hh, hf, hn, hc⟩ := hinv
  obtain ⟨c, hcle, hm⟩ := hc cid hreg
  have hget : m = _ := get_of_some _ _ _ hm
  have hfo : framesOf t.file = stored.map Subtype.val := by rw [hf, framesOf_frames]
  refine ⟨by rw [hget]; exact hm, by rw [hget], by rw [hget], ?_, ?_, ?_, ?_⟩
  · rw [hget, hfo, List.length_map]; exact hcle
  · rw [hget, hfo, ← List.map_take, List.map_map, frames_length_sum]
    rfl
  · rw [hget, hh, List.take_append_of_le_length hcle]
    show List.take (frames (stored.take c)).length t.file = _
    have hff : frames stored = frames (stored.take c) ++ frames (stored.drop c) := by
      rw [← frames_append, List.take_append_drop]
    rw [hf, hff, List.take_left]
  · intro hlt
    rcases hread with ⟨heq, _⟩ | ⟨_, p, hp, hr⟩
    · exact absurd heq (Nat.ne_of_lt hlt)
    · have hc2 : (t.consumers_.get cid).consumed < stored.length := by
        show m.consumed < _
        omega
      rw [hh, List.getElem?_append_left hc2] at hp
      rw [hr, hfo, List.getElem?_map]
      show some p.val = Option.map Subtype.val (stored[m.consumed]?) ∧ _
      rw [show stored[m.consumed]? = some p from hp]
      exact ⟨rfl, by simp [Topic.ReadResult.value]⟩

/-- C11 as amended, at the state of the counterexample of C11. -/
theorem append_failure_effect_witness :
    (9 : Nat) < (frame abc).length ∧ shortTopic.writer_.bad = true ∧
      ((run [.write abc] Topic.init).write_ abc (some 9)).written_
        = (run [.write abc] Topic.init).written_ + 1 ∧
      shortTopic.write_ strA none = { shortTopic with written_ := shortTopic.written_ + 1 } :=
  ⟨by decide, by decide,
    (append_failure_effect [.write abc] abc strA 9 none shortTopic shortTopic.writer_ 0 0
      (by decide) (by decide)).2.2.1,
    (append_failure_effect [.write abc] abc strA 9 none shortTopic shortTopic.writer_ 0 0
      (by decide) (by decide)).2.2.2.2.2.1⟩

/-- C17 at a concrete state: one frame, of "abc", and a new consumer. -/
theorem read_step_witness :
    (3 : Nat) < 2 ^ 64 ∧ ([97, 98, 99] : List Byte).length = 3 ∧
      oneFrameTopic.file = [] ++ le_bytes 8 3 ++ [97, 98, 99] ++ [] ∧
      oneFrameTopic.consumers_.get 0
        = { ifs := { is_open := true, pos := ([] : List Byte).length, fail := false },
            consumed := 0 } ∧
      0 < oneFrameTopic.written_ ∧
      (oneFrameTopic.read 0 0).value = some [97, 98, 99] :=
  ⟨by decide, by decide, by decide, by decide, by decide,
    (read_step oneFrameTopic 0 0 [] [97, 98, 99] [] 3 0 (by decide) (by decide) (by decide)
      (by decide) (by decide)).1⟩

/-- C19 at a concrete run: consumer 1 registers after consumer 0 has read one of
two frames; the offset of consumer 0 is the size of the first frame. -/
theorem cursor_agrees_with_consumed_witness :
    (0 : ConsumerID) < (run (opsAB0 ++ opsLater) Topic.init).cur_id_ ∧
      ((run (opsAB0 ++ opsLater) Topic.init).consumers_.get 0).ifs.pos
        = (((framesOf (run (opsAB0 ++ opsLater) Topic.init).file).take
            ((run (opsAB0 ++ opsLater) Topic.init).consumers_.get 0).consumed).map
              (fun f => 8 + f.length)).sum ∧
      ((run (opsAB0 ++ opsLater) Topic.init).consumers_.get 0).ifs.pos = 9 :=
  ⟨by decide, (cursor_agrees_with_consumed (opsAB0 ++ opsLater) 0 0 (by decide)).2.2.2.2.1,
    by decide⟩

end Queue

namespace Fib

/-! ## The Fibonacci functions -/

theorem fib_naive_eq (n : Nat) : fib_naive n = Nat.fib n % 2 ^ 64 ∧
    fib_naive (n + 1) = Nat.fib (n + 1) % 2 ^ 64 := by
  induction n with
  | zero => decide
  | succ n ih =>
    refine ⟨ih.2, ?_⟩
    rw [fib_naive, ih.1, ih.2, Nat.fib_add_two, Nat.add_comm (Nat.fib n)]
    omega

theorem fib_iter_loop_spec (n : Nat) (hn : n + 1 < 2 ^ 32) (fuel j : Nat)
    (hj : j ≤ n) (hfuel : n - j < fuel) :
    fib_iter_loop n fuel (j + 1) (Nat.fib j % 2 ^ 32) (Nat.fib (j + 1) % 2 ^ 32)
      = some (Nat.fib (n + 1) % 2 ^ 32) := by
  induction fuel generalizing j with
  | zero => omega
  | succ fuel ih =>
    rw [fib_iter_loop]
    by_cases h : j + 1 ≤ n
    · rw [if_pos h]
      have hi : (j + 1 + 1) % 2 ^ 32 = j + 1 + 1 := Nat.mod_eq_of_lt (by omega)
      have hs : (Nat.fib j % 2 ^ 32 + Nat.fib (j + 1) % 2 ^ 32) % 2 ^ 32
          = Nat.fib (j + 1 + 1) % 2 ^ 32 := by
        rw [Nat.fib_add_two]; omega
      rw [hi, hs]
      exact ih (j + 1) h (by omega)
    · rw [if_neg h]
      have : j = n := by omega
      rw [this]

theorem fib_iter_eq (n : Nat) (hn : n + 1 < 2 ^ 32) :
    fib_iter n = some (Nat.fib (n + 1) % 2 ^ 32) := by
  have h := fib_iter_loop_spec n hn (n + 1) 0 (Nat.zero_le _) (by omega)
  simpa [fib_iter] using h

theorem memoOK_init : MemoOK Memo.init := by
  refine ⟨rfl, rfl, ?_⟩
  intro k v h
  unfold Memo.init at h
  by_cases h0 : k = 0
  · subst h0; simp at h; subst h; rfl
  · by_cases h1 : k = 1
    · subst h1; simp at h; subst h; rfl
    · simp [h0, h1] at h

theorem memoOK_set (memo : Memo) (n : Nat) (h : MemoOK memo) (hn : 2 ≤ n) :
    MemoOK (memo.set n (fib_naive n)) := by
  obtain ⟨h0, h1, hall⟩ := h
  refine ⟨?_, ?_, ?_⟩
  · simp [Memo.set, h0]; omega
  · simp [Memo.set, h1]; omega
  · intro k v hk
    unfold Memo.set at hk
    by_cases hkn : k = n
    · subst hkn; simp at hk; exact hk.symm
    · simp [hkn] at hk; exact hall k v hk

theorem fib_memo_spec (leftFirst : Bool) (fuel : Nat) (memo : Memo) (n : Nat)
    (hok : MemoOK memo) (hn : n < 2 ^ 32) (hfuel : n < fuel) :
    ∃ memo', fib_memo leftFirst fuel memo n = some (fib_naive n, memo') ∧ MemoOK memo' := by
  induction fuel generalizing memo n with
  | zero => omega
  | succ fuel ih =>
    rw [fib_memo]
    cases hmn : memo n with
    | some v =>
      have := hok.2.2 n v hmn
      subst this
      exact ⟨memo, rfl, hok⟩
    | none =>
      have h2 : 2 ≤ n := by
        rcases Nat.lt_or_ge n 2 with h | h
        · interval_cases n
          · rw [hok.1] at hmn; cases hmn
          · rw [hok.2.1] at hmn; cases hmn
        · exact h
      have e1 : (n + 2 ^ 32 - 1) % 2 ^ 32 = n - 1 := by omega
      have e2 : (n + 2 ^ 32 - 2) % 2 ^ 32 = n - 2 := by omega
      have hv : (fib_naive (n - 1) + fib_naive (n - 2)) % 2 ^ 64 = fib_naive n := by
        obtain ⟨m, rfl⟩ : ∃ m, n = m + 2 := ⟨n - 2, by omega⟩
        simp [fib_naive]
      simp only [e1, e2]
      cases leftFirst with
      | true =>
        obtain ⟨m1, hr1, hok1⟩ := ih memo (n - 1) hok (by omega) (by omega)
        obtain ⟨m2, hr2, hok2⟩ := ih m1 (n - 2) hok1 (by omega) (by omega)
        simp only [if_true, hr1, hr2, hv]
        exact ⟨_, rfl, memoOK_set m2 n hok2 h2⟩
      | false =>
        obtain ⟨m1, hr1, hok1⟩ := ih memo (n - 2) hok (by omega) (by omega)
        obtain ⟨m2, hr2, hok2⟩ := ih m1 (n - 1) hok1 (by omega) (by omega)
        simp only [Bool.false_eq_true, if_false, hr1, hr2, hv]
        exact ⟨_, rfl, memoOK_set m2 n hok2 h2⟩

theorem afterCalls_spec (leftFirst : Bool) (calls : List Nat) (memo : Memo)
    (hok : MemoOK memo) (hc : ∀ k ∈ calls, k < 2 ^ 32) :
    ∃ memo', afterCalls leftFirst calls memo = some memo' ∧ MemoOK memo' := by
  induction calls generalizing memo with
  | nil => exact ⟨memo, rfl, hok⟩
  | cons k calls ih =>
    obtain ⟨m1, hr, hok1⟩ := fib_memo_spec leftFirst (k + 1) memo k hok
      (hc k (List.mem_cons_self _ _)) (Nat.lt_succ_self k)
    rw [afterCalls, hr]
    exact ih m1 hok1 (fun j hj => hc j (List.mem_cons_of_mem _ hj))

/-- C15, the code at failing inputs.  `fib_iter(0)` returns 1 where `fib_naive(0)` is 0,
and `fib_iter(2)` returns 2 where `fib_naive(2)` is 1: after its `n` iterations `cur` holds
the Fibonacci number with index `n + 1`. -/
theorem fib_iter_is_one_ahead :
    fib_iter 0 = some 1 ∧ fib_naive 0 = 0 ∧ fib_iter 2 = some 2 ∧ fib_naive 2 = 1 := by
  decide

/-- C16 (memoised Fibonacci).  Whatever calls of `fib_memo` came before, and in
whichever order the two operands of `+` are evaluated, `fib_memo(n)` returns, given
fuel for a recursion of depth `n`, and its value is the value of `fib_naive(n)`. -/
theorem fib_memo_eq_fib_naive (leftFirst : Bool) (calls : List Nat) (n fuel : Nat)
    (hc : ∀ k ∈ calls, k < 2 ^ 32) (hn : n < 2 ^ 32) (hfuel : n < fuel) :
    ∃ memo memo', afterCalls leftFirst calls Memo.init = some memo ∧
      fib_memo leftFirst fuel memo n = some (fib_naive n, memo') := by
  obtain ⟨memo, h1, hok⟩ := afterCalls_spec leftFirst calls Memo.init memoOK_init hc
  obtain ⟨memo', h2, _⟩ := fib_memo_spec leftFirst fuel memo n hok hn hfuel
  exact ⟨memo, memo', h1, h2⟩

/-- C16 at a concrete input: `fib_memo(10)` after `fib_memo(5)` and `fib_memo(3)`. -/
theorem fib_memo_eq_fib_naive_witness :
    (∀ k ∈ [5, 3], k < 2 ^ 32) ∧ 10 < 2 ^ 32 ∧ 10 < 11 ∧
      ∃ memo memo', afterCalls true [5, 3] Memo.init = some memo ∧
        fib_memo true 11 memo 10 = some (fib_naive 10, memo') :=
  ⟨by decide, by decide, by decide,
    fib_memo_eq_fib_naive true [5, 3] 10 11 (by decide) (by decide) (by decide)⟩

end Fib

namespace Regex


/-! ## Decimal text and `atoi` -/

theorem digitChar_toNat (d : Nat) (h : d < 10) : (Nat.digitChar d).toNat = 48 + d := by
  interval_cases d <;> rfl

theorem digitChar_isdigit (d : Nat) (h : d < 10) : isdigit (Nat.digitChar d) = true := by
  interval_cases d <;> rfl

theorem toDigitsCore_eq (fuel n : Nat) (ds : List Char) (h : n < fuel) :
    Nat.toDigitsCore 10 fuel n ds
      = (if n / 10 = 0 then [] else Nat.toDigits 10 (n / 10)) ++ Nat.digitChar (n % 10) :: ds := by
  induction fuel using Nat.strong_induction_on generalizing n ds with
  | _ fuel ih =>
    cases fuel with
    | zero => omega
    | succ fuel =>
      rw [Nat.toDigitsCore]
      by_cases h0 : n / 10 = 0
      · simp [h0]
      · simp only [h0, if_false]
        rw [ih fuel (Nat.lt_succ_self _) (n / 10) _ (by omega)]
        have e : Nat.toDigits 10 (n / 10)
            = (if n / 10 / 10 = 0 then [] else Nat.toDigits 10 (n / 10 / 10))
              ++ [Nat.digitChar (n / 10 % 10)] := by
          rw [Nat.toDigits]
          exact ih (n / 10 + 1) (by omega) (n / 10) [] (Nat.lt_succ_self _)
        rw [e]
        simp

theorem toDigits_eq (n : Nat) :
    Nat.toDigits 10 n
      = (if n / 10 = 0 then [] else Nat.toDigits 10 (n / 10)) ++ [Nat.digitChar (n % 10)] := by
  rw [Nat.toDigits]
  exact toDigitsCore_eq (n + 1) n [] (Nat.lt_succ_self _)

theorem toDigits_all_digits (n : Nat) : ∀ c ∈ Nat.toDigits 10 n, isdigit c = true := by
  induction n using Nat.strong_induction_on with
  | _ n ih =>
    intro c hc
    rw [toDigits_eq] at hc
    by_cases h0 : n / 10 = 0
    · simp only [h0, if_true, List.nil_append, List.mem_singleton] at hc
      rw [hc]; exact digitChar_isdigit _ (Nat.mod_lt _ (by decide))
    · simp only [h0, if_false, List.mem_append, List.mem_singleton] at hc
      rcases hc with hc | hc
      · exact ih (n / 10) (by omega) c hc
      · rw [hc]; exact digitChar_isdigit _ (Nat.mod_lt _ (by decide))

theorem toDigits_ne_nil (n : Nat) : Nat.toDigits 10 n ≠ [] := by
  rw [toDigits_eq]; simp

theorem atoiDigits_append (xs ys : List Char) (acc : Int) (h : ∀ c ∈ xs, isdigit c = true) :
    atoiDigits (xs ++ ys) acc = atoiDigits ys (atoiDigits xs acc) := by
  induction xs generalizing acc with
  | nil => rfl
  | cons x xs ih =>
    have hx : isdigit x = true := h x (List.mem_cons_self _ _)
    simp only [List.cons_append, atoiDigits, hx, if_true]
    exact ih _ (fun c hc => h c (List.mem_cons_of_mem _ hc))

theorem atoiDigits_toDigits (n : Nat) : atoiDigits (Nat.toDigits 10 n) 0 = n := by
  induction n using Nat.strong_induction_on with
  | _ n ih =>
    rw [toDigits_eq]
    have hd := digitChar_isdigit (n % 10) (Nat.mod_lt _ (by decide))
    have hv := digitChar_toNat (n % 10) (Nat.mod_lt _ (by decide))
    by_cases h0 : n / 10 = 0
    · simp only [h0, if_true, List.nil_append, atoiDigits, hd, hv]
      push_cast
      omega
    · simp only [h0, if_false]
      rw [atoiDigits_append _ _ _ (toDigits_all_digits _), ih (n / 10) (by omega)]
      simp only [atoiDigits, hd, if_true, hv]
      push_cast
      omega

theorem isdigit_not_space (c : Char) (h : isdigit c = true) : isspace c = false := by
  simp only [isdigit, Bool.and_eq_true, decide_eq_true_eq] at h
  have h1 : c ≠ ' ' := by
    intro e; subst e; revert h; decide
  simp only [isspace, Bool.or_eq_false_iff, beq_eq_false_iff_ne, ne_eq, h1, not_false_eq_true,
    Bool.and_eq_false_imp, decide_eq_true_eq, true_and]
  intro _
  simp only [decide_eq_false_iff_not]
  omega

theorem isdigit_ne (c d : Char) (h : isdigit c = true) (hd : isdigit d = false) : c ≠ d := by
  intro e; subst e; rw [h] at hd; cases hd

/-- The function `atoi` on a text that starts with digits: the number those digits spell. -/
theorem atoi_digits (xs ys : List Char) (hne : xs ≠ []) (h : ∀ c ∈ xs, isdigit c = true) :
    atoi (xs ++ ys) = atoiDigits ys (atoiDigits xs 0) := by
  cases xs with
  | nil => exact absurd rfl hne
  | cons x xs =>
    have hx : isdigit x = true := h x (List.mem_cons_self _ _)
    have hs : isspace x = false := isdigit_not_space x hx
    have h1 : x ≠ '-' := isdigit_ne x _ hx (by decide)
    have h2 : x ≠ '+' := isdigit_ne x _ hx (by decide)
    unfold atoi
    simp only [List.cons_append, List.dropWhile, hs, h1, h2, if_false]
    exact atoiDigits_append (x :: xs) ys 0 h

theorem atoi_NUL (ys : List Char) : atoi (NUL :: ys) = 0 := by
  unfold atoi
  have hs : isspace NUL = false := by decide
  have h1 : NUL ≠ '-' := by decide
  have h2 : NUL ≠ '+' := by decide
  have hd : isdigit NUL = false := by decide
  simp [List.dropWhile, hs, h1, h2, atoiDigits, hd]

theorem indexOf_append_of_not_mem (xs ys : List Char) (c : Char) (h : c ∉ xs) :
    (xs ++ c :: ys).indexOf c = xs.length := by
  induction xs with
  | nil => simp [List.indexOf_cons]
  | cons x xs ih =>
    have hx : x ≠ c := fun e => h (e ▸ List.mem_cons_self _ _)
    have hxs : c ∉ xs := fun e => h (List.mem_cons_of_mem _ e)
    simp [List.indexOf_cons, hx, ih hxs]

/-- The function `parse_range` on digits, a comma, digits, where the digits after the comma
are `init` followed by the single digit `last`. -/
theorem parse_range_digits (d1 init : List Char) (last : Char) (h1ne : d1 ≠ [])
    (h1 : ∀ c ∈ d1, isdigit c = true) (hi : ∀ c ∈ init, isdigit c = true) :
    parse_range (d1 ++ ',' :: (init ++ [last]))
      = some (atoiDigits d1 0, 10 * (if init = [] then 0 else atoiDigits init 0)
          + ((last.toNat : Int) - 48)) := by
  have hcomma : ',' ∉ d1 := fun hm => by
    have := h1 _ hm
    revert this; decide
  have hidx := indexOf_append_of_not_mem d1 (init ++ [last]) ',' hcomma
  have hlen : (d1 ++ ',' :: (init ++ [last])).length = d1.length + 1 + init.length + 1 := by
    simp; omega
  have hr1 : (d1 ++ ',' :: (init ++ [last])).set d1.length NUL
      = d1 ++ NUL :: (init ++ [last]) := by
    rw [List.set_append_right _ _ (Nat.le_refl _)]
    simp
  have hlen1 : (d1 ++ NUL :: (init ++ [last])).length = d1.length + 1 + init.length + 1 := by
    simp; omega
  have hr1' : d1 ++ NUL :: (init ++ [last]) = (d1 ++ NUL :: init) ++ [last] := by simp
  have hc : (d1 ++ NUL :: (init ++ [last])).getD (d1.length + 1 + init.length) NUL = last := by
    rw [hr1', List.getD_eq_getElem?_getD, List.getElem?_append_right (by simp; omega)]
    simp
    have : d1.length + 1 + init.length - (d1.length + (init.length + 1)) = 0 := by omega
    rw [this]; rfl
  have hr2 : (d1 ++ NUL :: (init ++ [last])).set (d1.length + 1 + init.length) NUL
      = d1 ++ NUL :: (init ++ [NUL]) := by
    rw [hr1', List.set_append_right _ _ (by simp; omega)]
    have : d1.length + 1 + init.length - (d1 ++ NUL :: init).length = 0 := by simp; omega
    rw [this]; simp
  have hdrop : (d1 ++ NUL :: (init ++ [NUL])).drop (d1.length + 1) = init ++ [NUL] := by
    rw [show d1 ++ NUL :: (init ++ [NUL]) = (d1 ++ [NUL]) ++ (init ++ [NUL]) by simp]
    exact List.drop_left' (by simp)
  have hdn : isdigit NUL = false := by decide
  have hn1 : atoi (d1 ++ NUL :: (init ++ [last])) = atoiDigits d1 0 := by
    rw [atoi_digits d1 _ h1ne h1]
    simp [atoiDigits, hdn]
  have hn2 : atoi (init ++ [NUL]) = if init = [] then 0 else atoiDigits init 0 := by
    by_cases hin : init = []
    · subst hin; simp [atoi_NUL]
    · rw [atoi_digits init _ hin hi]
      simp [atoiDigits, hdn, hin]
  unfold parse_range
  simp only [hidx, hlen, hr1, hlen1, hc, hr2, hdrop, hn1, hn2, Nat.add_sub_cancel]
  rw [if_neg (by omega)]

/-- The function `parse_range` on the decimal texts of two numbers with a comma between. -/
theorem parse_range_decimal (n1 n2 : Nat) :
    parse_range (Nat.toDigits 10 n1 ++ ',' :: Nat.toDigits 10 n2) = some ((n1 : Int), (n2 : Int)) := by
  have h2 := toDigits_eq n2
  rw [h2, parse_range_digits _ _ _ (toDigits_ne_nil n1) (toDigits_all_digits n1)
    (by
      intro c hc
      by_cases h0 : n2 / 10 = 0
      · simp [h0] at hc
      · simp only [h0, if_false] at hc
        exact toDigits_all_digits _ c hc)]
  rw [atoiDigits_toDigits, digitChar_toNat _ (Nat.mod_lt _ (by decide))]
  refine congrArg some (Prod.ext rfl ?_)
  by_cases h0 : n2 / 10 = 0
  · simp only [h0, if_true]
    omega
  · simp only [h0, if_false, toDigits_ne_nil, atoiDigits_toDigits]
    omega


/-! ## `parse` on a regex of letters with `*` and `+` -/

theorem letterIndexes_cons (x : Char) (r : List Char) :
    letterIndexes (x :: r)
      = (if isLower x then [0] else []) ++ (letterIndexes r).map (· + 1) := by
  unfold letterIndexes
  rw [List.length_cons, List.range_succ_eq_map, List.filter_cons, List.filter_map]
  have : (fun i => isLower ((x :: r).getD i NUL)) ∘ Nat.succ = fun i => isLower (r.getD i NUL) := by
    funext i; simp
  rw [this]
  by_cases hx : isLower x = true <;> simp [hx]

theorem letterIndexes_append (pre r : List Char) (h : ∀ c ∈ pre, isLower c = false) :
    letterIndexes (pre ++ r) = (letterIndexes r).map (· + pre.length) := by
  induction pre with
  | nil => simp
  | cons x pre ih =>
    have hx : isLower x = false := h x (List.mem_cons_self _ _)
    rw [List.cons_append, letterIndexes_cons, ih (fun c hc => h c (List.mem_cons_of_mem _ hc))]
    simp [hx, Nat.add_assoc]

theorem parseLoop_cons (x : Char) (regex : List Char) (idxs : List Nat) :
    parseLoop (x :: regex) (idxs.map (· + 1)) = parseLoop regex idxs := by
  induction idxs with
  | nil => rfl
  | cons idx rest ih =>
    have hhigh : (rest.map (· + 1)).headD (x :: regex).length - (idx + 1 + 1)
        = rest.headD regex.length - (idx + 1) := by
      cases rest <;> simp
    simp only [List.map_cons, parseLoop, ih, hhigh]
    simp

theorem parseLoop_append (pre regex : List Char) (idxs : List Nat) :
    parseLoop (pre ++ regex) (idxs.map (· + pre.length)) = parseLoop regex idxs := by
  induction pre generalizing idxs with
  | nil => simp
  | cons x pre ih =>
    have : idxs.map (· + (x :: pre).length) = (idxs.map (· + pre.length)).map (· + 1) := by
      simp [List.map_map, Nat.add_assoc]
    rw [this, List.cons_append, parseLoop_cons, ih]

theorem text_not_lower (r : Rep) : ∀ c ∈ r.text, isLower c = false := by
  cases r <;> simp [Rep.text] <;> decide

theorem parse_regex_text (c : Char) (r : Rep) : parse_regex c r.text = some (itemMatcher (c, r)) := by
  cases r <;> rfl

theorem letterIndexes_render_head (it : Char × Rep) (items : List (Char × Rep))
    (h : isLower it.1 = true) :
    ∃ tl, letterIndexes (render (it :: items)) = 0 :: tl := by
  rw [render, letterIndexes_cons]
  simp [h]

theorem parse_render (items : List (Char × Rep)) (h : ∀ it ∈ items, isLower it.1 = true) :
    parse (render items) = some (items.map itemMatcher) := by
  induction items with
  | nil => rfl
  | cons it items ih =>
    obtain ⟨c, r⟩ := it
    have hc : isLower c = true := h (c, r) (List.mem_cons_self _ _)
    have ih' := ih (fun it hit => h it (List.mem_cons_of_mem _ hit))
    have hidx : letterIndexes (render ((c, r) :: items))
        = 0 :: (letterIndexes (render items)).map (· + (c :: r.text).length) := by
      rw [render, letterIndexes_cons, letterIndexes_append _ _ (text_not_lower r)]
      simp [hc, List.map_map, Nat.add_assoc]
    unfold parse at ih' ⊢
    rw [hidx]
    simp only [parseLoop]
    have hrest : parseLoop (render ((c, r) :: items))
        ((letterIndexes (render items)).map (· + (c :: r.text).length))
        = some (items.map itemMatcher) := by
      have := parseLoop_append (c :: r.text) (render items) (letterIndexes (render items))
      rw [show render ((c, r) :: items) = (c :: r.text) ++ render items by simp [render]]
      rw [this, ih']
    have hpiece : ((render ((c, r) :: items)).drop (0 + 1)).take
        (((letterIndexes (render items)).map (· + (c :: r.text).length)).headD
          (render ((c, r) :: items)).length - (0 + 1)) = r.text := by
      cases items with
      | nil => simp [render, letterIndexes]
      | cons it2 items2 =>
        obtain ⟨tl, htl⟩ := letterIndexes_render_head it2 items2
          (h it2 (List.mem_cons_of_mem _ (List.mem_cons_self _ _)))
        rw [htl]
        simp [render]
    rw [hpiece, hrest]
    simp [render, parse_regex_text]


/-! ## `chomp` and `_match` on suffixes of the subject string -/

theorem suffix_get (s : List Char) (env : Mem) (off i : Nat) (h : off + i < s.length) :
    (suffixSpan s off).get (subjectMem s env) i = (s.drop off).getD i NUL := by
  have h1 : (0 : Int) ≤ (off : Int) + (i : Int) := by omega
  have h2 : (off : Int) + (i : Int) < (s.length : Int) := by omega
  have h3 : ((off : Int) + (i : Int)).toNat = off + i := by omega
  simp only [Span.get, suffixSpan, subjectMem, h1, h2, and_self, if_true, h3]
  simp [List.getD_eq_getElem?_getD, List.getElem?_drop]

theorem suffix_slice (s : List Char) (off i : Nat) (_h : off + i ≤ s.length) :
    (suffixSpan s off).slice i (suffixSpan s off).N_ = suffixSpan s (off + i) := by
  simp only [Span.slice, suffixSpan, Span.mk.injEq]
  constructor
  · push_cast; rfl
  · omega

theorem getD_drop_zero (l : List Char) (i : Nat) : (l.drop i).getD 0 NUL = l.getD i NUL := by
  simp [List.getD_eq_getElem?_getD, List.getElem?_drop]

theorem lead_le_length (c : Char) (l : List Char) : lead c l ≤ l.length := by
  induction l with
  | nil => simp [lead]
  | cons x xs ih =>
    simp only [lead, List.length_cons]
    split <;> omega

theorem drop_eq_cons (l : List Char) (i : Nat) (h : i < l.length) :
    l.drop i = l.getD i NUL :: l.drop (i + 1) := by
  rw [List.drop_eq_getElem_cons h]
  simp [List.getD_eq_getElem?_getD, List.getElem?_eq_getElem h]

/-- The loop of `PlusMatcher` and `StarMatcher` on a suffix of the subject: one span per
leading copy of `c` from position `i` on. -/
theorem chompLoop_suffix (s : List Char) (env : Mem) (c : Char) (off fuel i : Nat)
    (hoff : off ≤ s.length) (hi : i ≤ s.length - off) (hfuel : s.length - off - i ≤ fuel) :
    chompLoop (subjectMem s env) (suffixSpan s off) c fuel i
      = (List.range (lead c ((s.drop off).drop i))).map
          (fun j => suffixSpan s (off + (i + j + 1))) := by
  induction fuel generalizing i with
  | zero =>
    have : (s.drop off).drop i = [] := by
      apply List.drop_eq_nil_of_le; simp; omega
    simp [chompLoop, this, lead]
  | succ fuel ih =>
    rw [chompLoop]
    by_cases hlt : i < s.length - off
    · have hcons := drop_eq_cons (s.drop off) i (by simp; omega)
      have hget := suffix_get s env off i (by omega)
      by_cases hc : (s.drop off).getD i NUL = c
      · have hcond : (decide (i < (suffixSpan s off).N_) &&
            (suffixSpan s off).get (subjectMem s env) (i : Int) == c) = true := by
          rw [hget, hc, beq_self_eq_true, Bool.and_true, decide_eq_true_eq]
          exact hlt
        rw [if_pos hcond, ih (i + 1) (by omega) (by omega), hcons, lead, if_pos hc,
          suffix_slice s off (i + 1) (by omega), List.range_succ_eq_map]
        simp [List.map_map, Function.comp_def, Nat.add_assoc, Nat.add_comm 1]
      · have hcond : ¬ (decide (i < (suffixSpan s off).N_) &&
            (suffixSpan s off).get (subjectMem s env) (i : Int) == c) = true := by
          rw [hget, beq_false_of_ne hc, Bool.and_false]
          exact Bool.false_ne_true
        rw [if_neg hcond, hcons, lead, if_neg hc]
        rfl
    · have hcond : ¬ (decide (i < (suffixSpan s off).N_) &&
          (suffixSpan s off).get (subjectMem s env) (i : Int) == c) = true := by
        simp [suffixSpan, hlt]
      have : (s.drop off).drop i = [] := by
        apply List.drop_eq_nil_of_le; simp; omega
      rw [if_neg hcond, this]
      rfl

theorem mem_chompLoop_suffix (s : List Char) (env : Mem) (c : Char) (off : Nat)
    (hoff : off ≤ s.length) (sp : Span) :
    sp ∈ chompLoop (subjectMem s env) (suffixSpan s off) c (suffixSpan s off).N_ 0
      ↔ ∃ k, 1 ≤ k ∧ k ≤ lead c (s.drop off) ∧ sp = suffixSpan s (off + k) := by
  rw [chompLoop_suffix s env c off _ 0 hoff (Nat.zero_le _) (by simp [suffixSpan])]
  simp only [List.drop_zero, List.mem_map, List.mem_range, Nat.zero_add]
  constructor
  · rintro ⟨j, hj, rfl⟩
    exact ⟨j + 1, by omega, by omega, rfl⟩
  · rintro ⟨k, hk1, hk2, rfl⟩
    exact ⟨k - 1, by omega, by congr 2; omega⟩

theorem replicate_append_iff (c : Char) (k : Nat) (v s' : List Char) :
    v = List.replicate k c ++ s' ↔ k ≤ lead c v ∧ s' = v.drop k := by
  induction k generalizing v with
  | zero => simp; exact eq_comm
  | succ k ih =>
    cases v with
    | nil => simp [lead, List.replicate_succ]
    | cons x xs =>
      simp only [List.replicate_succ, List.cons_append, List.cons.injEq, lead, List.drop_succ_cons]
      by_cases hx : x = c
      · simp only [hx, true_and, if_true, Nat.add_le_add_iff_right]
        exact ih xs
      · simp [hx]

theorem cut_nil_iff (v : List Char) : Cut [] v ↔ v = [] := by
  constructor
  · intro h; cases h; rfl
  · rintro rfl; exact Cut.nil

theorem cut_cons_iff (c : Char) (r : Rep) (items : List (Char × Rep)) (v : List Char) :
    Cut ((c, r) :: items) v ↔ ∃ k, r.allows k ∧ k ≤ lead c v ∧ Cut items (v.drop k) := by
  constructor
  · intro h
    cases h with
    | cons _ _ k _ s' hk hs =>
      have := (replicate_append_iff c k (List.replicate k c ++ s') s').1 rfl
      exact ⟨k, hk, this.1, by rw [← this.2]; exact hs⟩
  · rintro ⟨k, hk, hle, hcut⟩
    have := (replicate_append_iff c k v (v.drop k)).2 ⟨hle, rfl⟩
    rw [this]
    exact Cut.cons c r k items _ hk hcut

theorem lead_pos_iff (c : Char) (v : List Char) :
    1 ≤ lead c v ↔ v ≠ [] ∧ v.getD 0 NUL = c := by
  cases v with
  | nil => simp [lead]
  | cons x xs =>
    by_cases hx : x = c <;> simp [lead, hx]

/-- The function `_match_from` on the matchers of `items` and a suffix of the subject is true
exactly when the suffix can be cut into the runs of `items`. -/
theorem match_from_iff (s : List Char) (env : Mem) (items : List (Char × Rep)) (off : Nat)
    (hoff : off ≤ s.length) :
    _match_from (subjectMem s env) (items.map itemMatcher) (suffixSpan s off) = true
      ↔ Cut items (s.drop off) := by
  induction items generalizing off with
  | nil =>
    rw [cut_nil_iff]
    simp only [List.map_nil, _match_from, suffixSpan, beq_iff_eq, List.drop_eq_nil_iff]
    omega
  | cons it items ih =>
    obtain ⟨c, r⟩ := it
    rw [cut_cons_iff, List.map_cons, _match_from, List.any_eq_true]
    have hlead := lead_le_length c (s.drop off)
    have hlen : (s.drop off).length = s.length - off := by simp
    have hsuf : ∀ k, k ≤ lead c (s.drop off) →
        (_match_from (subjectMem s env) (items.map itemMatcher) (suffixSpan s (off + k)) = true
          ↔ Cut items ((s.drop off).drop k)) := by
      intro k hk
      rw [ih (off + k) (by omega), List.drop_drop, Nat.add_comm]
    cases r with
    | one =>
      simp only [itemMatcher, BaseMatcher.chomp, Rep.allows]
      by_cases h1 : 1 ≤ lead c (s.drop off)
      · have hv := (lead_pos_iff c (s.drop off)).1 h1
        have hN : (suffixSpan s off).N_ ≠ 0 := by
          have : s.drop off ≠ [] := hv.1
          simp only [suffixSpan]
          intro h0
          exact this (List.drop_eq_nil_of_le (by omega))
        have hg : (suffixSpan s off).get (subjectMem s env) 0 = c := by
          have := suffix_get s env off 0 (by simp only [suffixSpan] at hN; omega)
          simp only [Nat.cast_zero] at this
          rw [this, hv.2]
        have hcond : ((suffixSpan s off).N_ = 0 ||
            (suffixSpan s off).get (subjectMem s env) 0 != c) = false := by
          simp [hN, hg]
        rw [hcond]
        simp only [Bool.false_eq_true, if_false, List.mem_singleton]
        rw [suffix_slice s off 1 (by omega)]
        constructor
        · rintro ⟨sp, rfl, hm⟩
          exact ⟨1, rfl, h1, (hsuf 1 h1).1 hm⟩
        · rintro ⟨k, rfl, _, hcut⟩
          exact ⟨_, rfl, (hsuf 1 h1).2 hcut⟩
      · have hcond : ((suffixSpan s off).N_ = 0 ||
            (suffixSpan s off).get (subjectMem s env) 0 != c) = true := by
          by_cases hN : (suffixSpan s off).N_ = 0
          · simp [hN]
          · have hg := suffix_get s env off 0 (by simp only [suffixSpan] at hN; omega)
            simp only [Nat.cast_zero] at hg
            have hne : s.drop off ≠ [] := by
              intro h0
              rw [h0] at hlen
              simp only [suffixSpan] at hN
              simp at hlen
              omega
            have : (s.drop off).getD 0 NUL ≠ c := fun e =>
              h1 ((lead_pos_iff c (s.drop off)).2 ⟨hne, e⟩)
            rw [hg, bne_iff_ne.2 this, Bool.or_true]
        rw [hcond]
        simp only [if_true, List.not_mem_nil, false_and, exists_false, false_iff]
        rintro ⟨k, rfl, hk, _⟩
        exact h1 hk
    | star =>
      simp only [itemMatcher, BaseMatcher.chomp, Rep.allows, true_and, List.mem_cons,
        mem_chompLoop_suffix s env c off hoff]
      constructor
      · rintro ⟨sp, hsp | ⟨k, _, hk, rfl⟩, hm⟩
        · subst hsp
          exact ⟨0, Nat.zero_le _, (hsuf 0 (Nat.zero_le _)).1 (by simpa using hm)⟩
        · exact ⟨k, hk, (hsuf k hk).1 hm⟩
      · rintro ⟨k, hk, hcut⟩
        by_cases h0 : k = 0
        · subst h0
          exact ⟨suffixSpan s off, Or.inl rfl, by simpa using (hsuf 0 hk).2 hcut⟩
        · exact ⟨_, Or.inr ⟨k, by omega, hk, rfl⟩, (hsuf k hk).2 hcut⟩
    | plus =>
      simp only [itemMatcher, BaseMatcher.chomp, Rep.allows]
      by_cases hN : (suffixSpan s off).N_ = 0
      · rw [if_pos hN]
        simp only [List.not_mem_nil, false_and, exists_false, false_iff]
        rintro ⟨k, hk1, hk, _⟩
        simp only [suffixSpan] at hN
        omega
      · rw [if_neg hN]
        simp only [mem_chompLoop_suffix s env c off hoff]
        constructor
        · rintro ⟨sp, ⟨k, hk1, hk, rfl⟩, hm⟩
          exact ⟨k, hk1, hk, (hsuf k hk).1 hm⟩
        · rintro ⟨k, hk1, hk, hcut⟩
          exact ⟨_, ⟨k, hk1, hk, rfl⟩, (hsuf k hk).2 hcut⟩

theorem matches_render (env : Mem) (s : List Char) (items : List (Char × Rep))
    (h : ∀ it ∈ items, isLower it.1 = true) :
    «matches» env s (render items)
      = some (_match_from (subjectMem s env) (items.map itemMatcher) (suffixSpan s 0)) := by
  unfold «matches»
  rw [parse_render items h]
  simp [_match, suffixSpan]


/-- C13 (regex semantics without ranges).  For a regex that is a sequence of
lower-case letters, each followed by nothing, by `*` or by `+`, `matches` returns,
and it returns true exactly when the subject can be cut into consecutive runs, one
per letter in order: one copy of the letter, zero or more copies for `*`, one or
more for `+`, with nothing left over.  The result does not depend on the memory
around the subject.  The empty regex matches the empty subject only. -/
theorem matches_iff_cut (env : Mem) (s : List Char) (items : List (Char × Rep))
    (h : ∀ it ∈ items, isLower it.1 = true) :
    (∃ b, «matches» env s (render items) = some b ∧ (b = true ↔ Cut items s)) ∧
      («matches» env s [] = some true ↔ s = []) := by
  constructor
  · refine ⟨_, matches_render env s items h, ?_⟩
    have := match_from_iff s env items 0 (Nat.zero_le _)
    simpa using this
  · have h0 := matches_render env s [] (by simp)
    have := match_from_iff s env [] 0 (Nat.zero_le _)
    rw [cut_nil_iff] at this
    simp only [render] at h0
    rw [h0]
    simpa using this

/-- C14, the code at a failing input.  The regex is the letter a with the range
"0,2" and the subject is "a", one copy of the letter, which the range allows.
`parse` builds `RangeMatcher(a, 0, 2)`.  `matches` returns whether the byte before
the subject string is the letter a: the second loop of `chomp` starts at `i = 0` and
reads `s[i - 1]`.  With a 0 byte there the result is false. -/
theorem range_low_zero_reads_before_subject (env : Mem) :
    parse ['a', '0', ',', '2'] = some [.RangeMatcher 'a' 0 2] ∧
      «matches» env ['a'] ['a', '0', ',', '2'] = some (env (-1) == 'a') ∧
      «matches» zeroMem ['a'] ['a', '0', ',', '2'] = some false ∧
      «matches» aMem ['a'] ['a', '0', ',', '2'] = some true := by
  have hp : parse ['a', '0', ',', '2'] = some [.RangeMatcher 'a' 0 2] := by decide
  refine ⟨hp, ?_, by decide, by decide⟩
  unfold «matches»
  rw [hp]
  by_cases he : env (-1) = 'a'
  · simp [_match, _match_from, BaseMatcher.chomp, rangeLoop, Span.get, Span.slice, subjectMem, he]
  · simp [_match, _match_from, BaseMatcher.chomp, rangeLoop, Span.get, Span.slice, subjectMem, he]

/-- C18 (range parsing).  For natural numbers `n1` and `n2` that fit an `int`,
`parse_range` applied to the decimal text of `n1`, a comma and the decimal text of
`n2` returns `n1` and `n2`. -/
theorem parse_range_of_decimal_text (n1 n2 : Nat) (_h1 : n1 < 2 ^ 31) (_h2 : n2 < 2 ^ 31) :
    parse_range ((Nat.repr n1).data ++ ',' :: (Nat.repr n2).data)
      = some ((n1 : Int), (n2 : Int)) :=
  parse_range_decimal n1 n2

/-- C13 at a concrete input: the regex of the letters a with `*` and b, on "aab". -/
theorem matches_iff_cut_witness :
    (∀ it ∈ [('a', Rep.star), ('b', Rep.one)], isLower it.1 = true) ∧
      ∃ b, «matches» zeroMem ['a', 'a', 'b'] (render [('a', Rep.star), ('b', Rep.one)]) = some b ∧
        (b = true ↔ Cut [('a', Rep.star), ('b', Rep.one)] ['a', 'a', 'b']) :=
  ⟨by decide, (matches_iff_cut zeroMem ['a', 'a', 'b'] [('a', Rep.star), ('b', Rep.one)]
    (by decide)).1⟩

/-- C18 at a concrete input: the text "2,15". -/
theorem parse_range_of_decimal_text_witness :
    2 < 2 ^ 31 ∧ 15 < 2 ^ 31 ∧
      parse_range ((Nat.repr 2).data ++ ',' :: (Nat.repr 15).data) = some ((2 : Int), (15 : Int)) ∧
      (Nat.repr 2).data ++ ',' :: (Nat.repr 15).data = ['2', ',', '1', '5'] :=
  ⟨by decide, by decide,
    by simpa using parse_range_of_decimal_text 2 15 (by decide) (by decide), by decide⟩

end Regex
